import Mathlib

/-!
Verification of the reconciliation core of the ibm-user-management-operator:
the document merge engine (`MergeCR` / `checkKeyBeforeMerging` / `mergeMetadata`
in internal/controller/utils/utils.go), the hash-based change detector
(`CalculateHashes`), the Redis URL helper (`GetRedisInfo`), and the readiness
wait functions.

Documents flowing through the merge are JSON trees decoded into Go
`map[string]interface{}` values.  We embed them as the mutual inductive family
`JValue`/`JArr`/`JObj`: scalars, arrays, and string-keyed objects.  Go maps are
represented as association lists in a fixed iteration order; Go guarantees
distinct keys, which theorems track through the well-formedness predicate
`wfO`.  JSON `null` is not represented: the Go code treats a key bound to
`nil` exactly like an absent key in every branch modelled here, and the
specification's data model ("scalars, mappings, or sequences") has no null.
-/

set_option autoImplicit false
set_option linter.unusedVariables false
set_option linter.unnecessarySeqFocus false

mutual

inductive JValue : Type where
  | str (s : String)
  | num (n : Int)
  | boolean (b : Bool)
  | arr (a : JArr)
  | obj (o : JObj)
  deriving DecidableEq

inductive JArr : Type where
  | nil
  | cons (v : JValue) (rest : JArr)
  deriving DecidableEq

inductive JObj : Type where
  | nil
  | cons (k : String) (v : JValue) (rest : JObj)
  deriving DecidableEq

end

/-- Go map read `m[k]`: the value bound to `k`, or `none` when absent. -/
def getVal : JObj → String → Option JValue
  | .nil, _ => none
  | .cons k' v rest, k => if k' = k then some v else getVal rest k

/-- Go map write `m[k] = v`: replaces the (first) binding of `k`, or appends. -/
def setVal : JObj → String → JValue → JObj
  | .nil, k, v => .cons k v .nil
  | .cons k' v' rest, k, v =>
    if k' = k then .cons k v rest else .cons k' v' (setVal rest k v)

mutual

/-- Well-formed value: every object in the tree has pairwise distinct keys,
as is guaranteed for trees decoded from Go maps. -/
def wfV : JValue → Bool
  | .obj o => wfO o
  | .arr a => wfA a
  | _ => true

def wfA : JArr → Bool
  | .nil => true
  | .cons v rest => wfV v && wfA rest

def wfO : JObj → Bool
  | .nil => true
  | .cons k v rest => (getVal rest k).isNone && wfV v && wfO rest

end

/-!
## The deep merge

`checkKeyBeforeMerging(key, defaultMap, changedMap, finalMap)`
(utils.go, second revision, lines 762-794) updates `finalMap[key]` in place,
where `finalMap[key] == changedMap`.  We embed it as the pure function
`mergeVal defaultMap changedMap` returning the new value for the key; the
caller stores it back with `setVal`.  The `none` result models the Go runtime
panic raised by the unchecked type assertion
`changedVal[i].(map[string]interface{})` when a sequence position holds a
non-empty mapping on the default side but a non-mapping on the changed side.

The leading `equality.Semantic.DeepEqual(defaultMap, changedMap)` guard is the
`d = c` test; on equal trees the function leaves the changed side untouched.

The absent-key case (`changedMap == nil` in Go, reached for every shape of
`defaultMap`) is handled in `mergeFields`, which embeds the loops
`for newKey := range defaultVal { checkKeyBeforeMerging(...) }` and the
top-level `for key := range defaultCRDecoded { ... }` of `MergeCR`.
-/

mutual

def mergeVal (d c : JValue) : Option JValue :=
  if d = c then some c
  else
    match d, c with
    | .obj df, .obj cf => (mergeFields df cf).map .obj
    | .obj _, _ => some c
    | .arr ds, .arr cs => (mergeElems ds cs).map .arr
    | .arr _, _ => some c
    | _, _ => some c
termination_by structural d

/-- One pass of `for key := range default { checkKeyBeforeMerging(key, default[key], changed[key], changed) }`:
keys absent from the changed side are written with the default's value, keys
present on both sides are merged by `mergeVal`. -/
def mergeFields : JObj → JObj → Option JObj
  | .nil, cf => some cf
  | .cons k dv rest, cf =>
    match getVal cf k with
    | none => mergeFields rest (setVal cf k dv)
    | some cv =>
      match mergeVal dv cv with
      | none => none
      | some w => mergeFields rest (setVal cf k w)
termination_by structural df => df

/-- The `case []interface{}` positional loop `for i := range defaultVal`:
positions beyond the changed sequence's length are skipped, positions beyond
the default sequence's length are kept. -/
def mergeElems : JArr → JArr → Option JArr
  | .nil, cs => some cs
  | .cons _ _, .nil => some .nil
  | .cons d ds, .cons c cs =>
    match mergeElem d c with
    | none => none
    | some w =>
      match mergeElems ds cs with
      | none => none
      | some ws => some (.cons w ws)
termination_by structural ds => ds

/-- Merge of one sequence position.  When the default element is a non-empty
mapping, Go asserts `changedVal[i].(map[string]interface{})` and panics if the
changed element is not a mapping (`none`); an empty default mapping runs the
key loop zero times, so no assertion is evaluated. -/
def mergeElem (d c : JValue) : Option JValue :=
  match d with
  | .obj .nil => some c
  | .obj df =>
    match c with
    | .obj cf => (mergeFields df cf).map .obj
    | _ => none
  | _ => some c
termination_by structural d

end

/-- `for key, value := range defaults { changed[key] = value }`:
write every binding of `defaults` into `changed`. -/
def putAll : JObj → JObj → JObj
  | c, .nil => c
  | c, .cons k v rest => putAll (setVal c k v) rest

/-- One labels/annotations clause of `mergeMetadata` (utils.go 732-760):
if the default metadata holds a mapping under `key`, overwrite the changed
metadata's mapping with its entries, or install it wholesale when the changed
metadata has no mapping there. -/
def mergeLAKey (key : String) (dMeta cMeta : JObj) : JObj :=
  match getVal dMeta key with
  | some (.obj dm) =>
    match getVal cMeta key with
    | some (.obj cm) => setVal cMeta key (.obj (putAll cm dm))
    | _ => setVal cMeta key (.obj dm)
  | _ => cMeta

/-- `mergeMetadata(defaultCRDecoded, changedCRDecoded)` (utils.go 732-760). -/
def mergeMetadata (dObj cObj : JObj) : JObj :=
  match getVal dObj "metadata" with
  | some (.obj dMeta) =>
    match getVal cObj "metadata" with
    | some (.obj cMeta) =>
      setVal cObj "metadata"
        (.obj (mergeLAKey "annotations" dMeta (mergeLAKey "labels" dMeta cMeta)))
    | _ => setVal cObj "metadata" (.obj dMeta)
  | _ => cObj

/-- The both-sides-provided path of `MergeCR` (utils.go 714-729): the key loop
followed by `mergeMetadata`, returning the mutated changed-side document. -/
def mergeBoth (defaultCRDecoded changedCRDecoded : JObj) : Option JObj :=
  match mergeFields defaultCRDecoded changedCRDecoded with
  | none => none
  | some merged => some (mergeMetadata defaultCRDecoded merged)

/-- A `[]byte` argument of `MergeCR`: empty slice, non-empty bytes that fail
`json.Unmarshal` (the error is only logged and the decoded map stays empty),
or non-empty bytes decoding to an object. -/
inductive CRBytes : Type where
  | empty
  | malformed
  | wellFormed (o : JObj)
  deriving DecidableEq

/-- The decoded map after the `json.Unmarshal` attempt: unmarshal failure
leaves the freshly allocated empty map in place. -/
def decodeCR : CRBytes → JObj
  | .wellFormed o => o
  | _ => .nil

/-- `MergeCR(defaultCR, changedCR []byte)` (utils.go 692-730).
`none` models the type-assertion panic inside the deep merge; every branch
that avoids the panic returns a document and no error (the function has no
error result). -/
def MergeCR : CRBytes → CRBytes → Option JObj
  | .empty, .empty => some .nil
  | d, .empty => some (decodeCR d)
  | .empty, c => some (decodeCR c)
  | d, c => mergeBoth (decodeCR d) (decodeCR c)

/-- `MergeResources(fromCluster, fromTemplate)` (utils.go 668-690): both
objects are JSON-marshalled (for tree-valued objects this always succeeds and
yields non-empty bytes) and passed to `MergeCR(fromClusterBytes, fromTemplateBytes)`
— the live document in the `defaultCR` slot, the template in `changedCR`. -/
def MergeResources (fromCluster fromTemplate : JObj) : Option JObj :=
  MergeCR (.wellFormed fromCluster) (.wellFormed fromTemplate)

/-- Descent through nested objects along a key path. -/
def getPathV : JValue → List String → Option JValue
  | v, [] => some v
  | .obj o, k :: p =>
    match getVal o k with
    | some v => getPathV v p
    | none => none
  | _, _ :: _ => none
termination_by structural v p => p

/-- Descent through nested objects along a key path, from a top-level object. -/
def getPathO (o : JObj) : List String → Option JValue
  | [] => some (.obj o)
  | k :: p =>
    match getVal o k with
    | some v => getPathV v p
    | none => none

/-- Along the path `p`, the object either lacks the next key or holds a
nested object there. -/
def tplPathOk : JObj → List String → Bool
  | _, [] => true
  | o, k :: p =>
    match getVal o k with
    | none => true
    | some (.obj o2) => tplPathOk o2 p
    | some _ => false

/-!
## Hash / change detector

`CalculateHashes(fromCluster, fromTemplate *unstructured.Unstructured)`
(utils.go, second revision, lines 637-656) serializes the template's object
map with the external YAML library, hashes the bytes with SHA-256, and keeps
the first 7 digest bytes as a 14-character lowercase hex string; the hash
recorded on the cluster resource is read from its
`operator.ibm.com/ibm-user-management-operator.hashedData` annotation.

The YAML library is an external collaborator: we model it as a fixed
deterministic serializer of the document tree (the specification only
requires a single stable serialization used consistently).  SHA-256 itself is
implemented below over byte lists, with 32-bit words as `Nat` reduced
modulo `2 ^ 32`.
-/

/-- Truncate to a 32-bit word. -/
def w32 (n : Nat) : Nat := n % 4294967296

/-- Right rotation of a 32-bit word. -/
def rotr32 (n x : Nat) : Nat := w32 ((x >>> n) + (x <<< (32 - n)))

/-- Bitwise complement of a 32-bit word. -/
def not32 (x : Nat) : Nat := 4294967295 - x % 4294967296

def ch32 (x y z : Nat) : Nat := (x &&& y) ^^^ (not32 x &&& z)

def maj32 (x y z : Nat) : Nat := (x &&& y) ^^^ (x &&& z) ^^^ (y &&& z)

def bigSigma0 (x : Nat) : Nat := rotr32 2 x ^^^ rotr32 13 x ^^^ rotr32 22 x

def bigSigma1 (x : Nat) : Nat := rotr32 6 x ^^^ rotr32 11 x ^^^ rotr32 25 x

def smallSigma0 (x : Nat) : Nat := rotr32 7 x ^^^ rotr32 18 x ^^^ (x >>> 3)

def smallSigma1 (x : Nat) : Nat := rotr32 17 x ^^^ rotr32 19 x ^^^ (x >>> 10)

/-- The 64 SHA-256 round constants (FIPS 180-4). -/
def sha256K : List Nat := [
    1116352408, 1899447441, 3049323471, 3921009573,
    961987163, 1508970993, 2453635748, 2870763221,
    3624381080, 310598401, 607225278, 1426881987,
    1925078388, 2162078206, 2614888103, 3248222580,
    3835390401, 4022224774, 264347078, 604807628,
    770255983, 1249150122, 1555081692, 1996064986,
    2554220882, 2821834349, 2952996808, 3210313671,
    3336571891, 3584528711, 113926993, 338241895,
    666307205, 773529912, 1294757372, 1396182291,
    1695183700, 1986661051, 2177026350, 2456956037,
    2730485921, 2820302411, 3259730800, 3345764771,
    3516065817, 3600352804, 4094571909, 275423344,
    430227734, 506948616, 659060556, 883997877,
    958139571, 1322822218, 1537002063, 1747873779,
    1955562222, 2024104815, 2227730452, 2361852424,
    2428436474, 2756734187, 3204031479, 3329325298]

/-- SHA-256 padding: a `0x80` byte, zeros to 56 mod 64, then the bit length
as an 8-byte big-endian integer. -/
def sha256Pad (msg : List Nat) : List Nat :=
  let L := msg.length
  let zeros := (119 - L % 64) % 64
  let bits := 8 * L
  msg ++ [128] ++ List.replicate zeros 0 ++
    (List.range 8).map (fun i => bits >>> (8 * (7 - i)) % 256)

/-- Split a byte list into 64-byte blocks. -/
def sha256Blocks (l : List Nat) : List (List Nat) :=
  if l.length = 0 then []
  else l.take 64 :: sha256Blocks (l.drop 64)
termination_by l.length
decreasing_by simp; omega

/-- The 16 big-endian 32-bit words of one block. -/
def blockWords (b : List Nat) : List Nat :=
  (List.range 16).map (fun i =>
    (b.getD (4 * i) 0) <<< 24 + (b.getD (4 * i + 1) 0) <<< 16 +
    (b.getD (4 * i + 2) 0) <<< 8 + b.getD (4 * i + 3) 0)

/-- Extend 16 message words to the 64-entry message schedule. -/
def extendSchedule (ws : List Nat) : Nat → List Nat
  | 0 => ws
  | n + 1 =>
    let ws := extendSchedule ws n
    let m := ws.length
    ws ++ [w32 (smallSigma1 (ws.getD (m - 2) 0) + ws.getD (m - 7) 0 +
                smallSigma0 (ws.getD (m - 15) 0) + ws.getD (m - 16) 0)]

/-- The eight 32-bit working registers. -/
structure H8 where
  a : Nat
  b : Nat
  c : Nat
  d : Nat
  e : Nat
  f : Nat
  g : Nat
  h : Nat

/-- One compression round. -/
def sha256Round (st : H8) (kw : Nat × Nat) : H8 :=
  let t1 := w32 (st.h + bigSigma1 st.e + ch32 st.e st.f st.g + kw.1 + kw.2)
  let t2 := w32 (bigSigma0 st.a + maj32 st.a st.b st.c)
  ⟨w32 (t1 + t2), st.a, st.b, st.c, w32 (st.d + t1), st.e, st.f, st.g⟩

/-- Compress one 64-byte block into the running hash state. -/
def sha256Block (st : H8) (block : List Nat) : H8 :=
  let ws := extendSchedule (blockWords block) 48
  let r := (sha256K.zip ws).foldl sha256Round st
  ⟨w32 (st.a + r.a), w32 (st.b + r.b), w32 (st.c + r.c), w32 (st.d + r.d),
   w32 (st.e + r.e), w32 (st.f + r.f), w32 (st.g + r.g), w32 (st.h + r.h)⟩

/-- Big-endian bytes of a 32-bit word. -/
def wordBytes (x : Nat) : List Nat :=
  [x >>> 24 % 256, x >>> 16 % 256, x >>> 8 % 256, x % 256]

/-- SHA-256 of a byte list (`crypto/sha256.Sum256`): a 32-byte digest. -/
def sha256 (msg : List Nat) : List Nat :=
  let st0 : H8 := ⟨1779033703, 3144134277, 1013904242, 2773480762,
                   1359893119, 2600822924, 528734635, 1541459225⟩
  let st := (sha256Blocks (sha256Pad msg)).foldl sha256Block st0
  wordBytes st.a ++ wordBytes st.b ++ wordBytes st.c ++ wordBytes st.d ++
  wordBytes st.e ++ wordBytes st.f ++ wordBytes st.g ++ wordBytes st.h

/-- One lowercase hex digit. -/
def hexDigit (n : Nat) : Char :=
  if n < 10 then Char.ofNat (48 + n) else Char.ofNat (87 + n)

/-- `hex.EncodeToString`: two lowercase hex characters per byte. -/
def hexEncode (bytes : List Nat) : String :=
  ⟨(bytes.map (fun b => [hexDigit (b / 16 % 16), hexDigit (b % 16)])).flatten⟩

/-!
The canonical serializer standing in for the external YAML library: a fixed
flow-style rendering of the document tree in stored field order (the stored
order is itself canonical in this embedding, so the serialization is stable,
which is all `CalculateHashes` relies on).
-/

mutual

def serV : JValue → String
  | .str s => "\"" ++ s ++ "\""
  | .num n => toString n
  | .boolean b => toString b
  | .arr a => "[" ++ serA a ++ "]"
  | .obj o => "\x7b" ++ serO o ++ "\x7d"
termination_by structural v => v

def serA : JArr → String
  | .nil => ""
  | .cons v .nil => serV v
  | .cons v rest => serV v ++ "," ++ serA rest
termination_by structural a => a

def serO : JObj → String
  | .nil => ""
  | .cons k v .nil => k ++ ": " ++ serV v
  | .cons k v rest => k ++ ": " ++ serV v ++ "," ++ serO rest
termination_by structural o => o

end

/-- The byte serialization of a document handed to the hash. -/
def yamlMarshal (o : JObj) : List Nat :=
  (serO o).data.map Char.toNat

/-- `resources.HashedData` (internal/resources/images/images.go line 153). -/
def hashedDataKey : String :=
  "operator.ibm.com/ibm-user-management-operator.hashedData"

/-- Values of an object as a string map, in the manner of
`unstructured.Unstructured.GetAnnotations` / `NestedStringMap`: `none` when
any value is not a string. -/
def objToStringMap : JObj → Option (List (String × String))
  | .nil => some []
  | .cons k (.str s) rest => (objToStringMap rest).map ((k, s) :: ·)
  | .cons _ _ _ => none

/-- `fromCluster.GetAnnotations()`: `metadata.annotations` as a string map,
`nil` when the path is absent, not a mapping, or holds a non-string value. -/
def getAnnotations (o : JObj) : Option (List (String × String)) :=
  match getVal o "metadata" with
  | some (.obj m) =>
    match getVal m "annotations" with
    | some (.obj a) => objToStringMap a
    | _ => none
  | _ => none

/-- Go string-map read with the zero-value default: `m[k]` is `""` if absent. -/
def lookupStr : List (String × String) → String → String
  | [], _ => ""
  | (k', s) :: rest, k => if k' = k then s else lookupStr rest k

/-- The `clusterHash` computation of `CalculateHashes`: the recorded
annotation, or `""` when the annotation map is `nil`. -/
def clusterHashOf (c : JObj) : String :=
  match getAnnotations c with
  | none => ""
  | some annos => lookupStr annos hashedDataKey

/-- A template argument of `CalculateHashes`: its object map either
serializes, or makes the external YAML marshal fail. -/
inductive TDoc : Type where
  | marshalable (o : JObj)
  | unmarshalable
  deriving DecidableEq

/-- The fresh fingerprint of a template document:
`hex.EncodeToString(sha256.Sum256(templateData)[:7])`. -/
def templateHashOf (o : JObj) : String :=
  hexEncode ((sha256 (yamlMarshal o)).take 7)

/-- `CalculateHashes(fromCluster, fromTemplate)` (utils.go 637-656): marshal
the template (serialization failure is surfaced as the error), hash and
truncate, then read the recorded hash off the cluster resource when one was
passed. -/
def CalculateHashes (fromCluster : Option JObj) (fromTemplate : TDoc) :
    Except Unit (String × String) :=
  match fromTemplate with
  | .unmarshalable => .error ()
  | .marshalable o =>
    let templateHashStr := templateHashOf o
    match fromCluster with
    | some c => .ok (clusterHashOf c, templateHashStr)
    | none => .ok ("", templateHashStr)

/-- The pair of documents visible to `CalculateHashes` through its pointer
arguments. -/
structure HashArgs where
  fromCluster : Option JObj
  fromTemplate : TDoc
  deriving DecidableEq

/-- `CalculateHashes` with its heap effects made explicit: the result paired
with the documents as they stand when the function returns.  Every Go
statement in the function body reads (`GetAnnotations`, `yaml.Marshal`, map
indexing); none writes through either pointer, so each return site passes the
argument state through unchanged. -/
def CalculateHashesProg (s : HashArgs) : Except Unit (String × String) × HashArgs :=
  match s.fromTemplate with
  | .unmarshalable => (.error (), s)
  | .marshalable o =>
    let templateHashStr := templateHashOf o
    match s.fromCluster with
    | some c => (.ok (clusterHashOf c, templateHashStr), s)
    | none => (.ok ("", templateHashStr), s)

/-- `SetHashAnnotation(obj, hash)` (utils.go 658-666), for contrast a genuine
writer: it stores the hash under the fingerprint key, creating the annotation
map if needed. -/
def SetHashAnnotation (obj : JObj) (hash : String) : JObj :=
  match getVal obj "metadata" with
  | some (.obj m) =>
    match getVal m "annotations" with
    | some (.obj a) =>
      setVal obj "metadata" (.obj (setVal m "annotations" (.obj (setVal a hashedDataKey (.str hash)))))
    | _ =>
      setVal obj "metadata" (.obj (setVal m "annotations" (.obj (.cons hashedDataKey (.str hash) .nil))))
  | _ =>
    setVal obj "metadata"
      (.obj (.cons "annotations" (.obj (.cons hashedDataKey (.str hash) .nil)) .nil))

/-!
## Redis URL helper

`GetRedisInfo(redisURL)` (utils.go, second revision, lines 619-635) parses
the URL with the standard library's `net/url` and substitutes the default
Redis port `6379` when the URL carries none.  The parser below models the
fragment of `net/url.Parse` exercised here: scheme extraction (erroring on an
empty scheme before `:`), rejection of ASCII control characters, authority
extraction after `//` up to the first `/`, `?` or `#`, userinfo stripping at
the last `@`, and port validation at the last `:` of the host.
-/

def isAlphaCh (c : Char) : Bool := ('a' ≤ c && c ≤ 'z') || ('A' ≤ c && c ≤ 'Z')

def isDigitCh (c : Char) : Bool := '0' ≤ c && c ≤ '9'

def isCtlCh (c : Char) : Bool := c.toNat < 32 || c.toNat == 127

/-- `getScheme`: position of the `:` terminating a scheme prefix, or `none`
when the string has no scheme part. -/
def findSchemeColon : List Char → Nat → Option Nat
  | [], _ => none
  | c :: rest, i =>
    if isAlphaCh c then findSchemeColon rest (i + 1)
    else if isDigitCh c || c == '+' || c == '-' || c == '.' then
      if i == 0 then none else findSchemeColon rest (i + 1)
    else if c == ':' then some i
    else none

/-- Index of the last occurrence of `c`, if any. -/
def lastIdxOf (cs : List Char) (c : Char) : Option Nat :=
  match cs with
  | [] => none
  | c' :: rest =>
    match lastIdxOf rest c with
    | some i => some (i + 1)
    | none => if c' == c then some 0 else none

/-- `validOptionalPort`: empty, or `:` followed by decimal digits. -/
def validOptionalPort : List Char → Bool
  | [] => true
  | c :: digits => c == ':' && digits.all isDigitCh

/-- The parsed URL fields `GetRedisInfo` consumes. -/
structure GoURL where
  scheme : String
  host : String
  deriving DecidableEq

/-- Host parsing of `net/url`: bracketed IPv6 form, and port validation after
the last `:`. -/
def parseHost (h : List Char) : Except String String :=
  match h with
  | '[' :: rest =>
    match lastIdxOf rest ']' with
    | none => .error "missing ']' in host"
    | some i =>
      if validOptionalPort (rest.drop (i + 1)) then .ok ⟨h⟩
      else .error "invalid port after host"
  | _ =>
    match lastIdxOf h ':' with
    | none => .ok ⟨h⟩
    | some i =>
      if validOptionalPort (h.drop i) then .ok ⟨h⟩
      else .error "invalid port after host"

/-- Authority handling of `net/url.Parse` once the scheme is removed. -/
def parseAfterScheme (scheme : String) (rest : List Char) : Except String GoURL :=
  match rest with
  | '/' :: '/' :: afterSlashes =>
    let authority := afterSlashes.takeWhile (fun c => !(c == '/' || c == '?' || c == '#'))
    let host0 :=
      match lastIdxOf authority '@' with
      | some i => authority.drop (i + 1)
      | none => authority
    match parseHost host0 with
    | .error e => .error e
    | .ok host => .ok ⟨scheme, host⟩
  | _ => .ok ⟨scheme, ""⟩

/-- The fragment of `net/url.Parse` relevant to `GetRedisInfo`. -/
def urlParse (raw : String) : Except String GoURL :=
  if raw.data.any isCtlCh then .error "invalid control character in URL"
  else
    match findSchemeColon raw.data 0 with
    | some 0 => .error "missing protocol scheme"
    | some i => parseAfterScheme ⟨raw.data.take i⟩ (raw.data.drop (i + 1))
    | none => parseAfterScheme "" raw.data

/-- `splitHostPort` backing `URL.Hostname`/`URL.Port`: strip a valid port
after the last `:`, then strip IPv6 brackets from the host part. -/
def splitHostPort (host : String) : String × String :=
  let cs := host.data
  let hp : List Char × List Char :=
    match lastIdxOf cs ':' with
    | some i => if validOptionalPort (cs.drop i) then (cs.take i, cs.drop (i + 1)) else (cs, [])
    | none => (cs, [])
  let h :=
    match hp.1 with
    | '[' :: rest => if rest.getLast? = some ']' then rest.dropLast else hp.1
    | _ => hp.1
  (⟨h⟩, ⟨hp.2⟩)

/-- `GetRedisInfo(redisURL)` (utils.go 619-635). -/
def GetRedisInfo (redisURL : String) : Except String (String × String) :=
  match urlParse redisURL with
  | .error e => .error ("error parsing redis URL: " ++ e)
  | .ok u =>
    let hostname := (splitHostPort u.host).1
    let port := (splitHostPort u.host).2
    let port := if port = "" then "6379" else port
    .ok (hostname, port)

/-!
## Readiness wait functions

Each `WaitFor...` function (utils.go, second revision, lines 798-937) wraps
`wait.PollImmediate(interval, timeout, cond)`: the condition is evaluated
once per tick until it yields `(true, nil)` (success), yields a non-nil error
(the wait aborts with that error), or the timeout budget is exhausted.  We
embed one tick of each condition as a function of the fetch outcome, and the
poll loop as a recursion over a finite schedule of fetch outcomes (the
schedule length is the tick budget the timeout allows).
-/

/-- Outcome of one `client.Get` call. -/
inductive GetOutcome (α : Type) : Type where
  | notFound
  | otherError
  | found (a : α)
  deriving DecidableEq

/-- Outcome of one `client.List` call. -/
inductive ListOutcome (α : Type) : Type where
  | listError
  | listed (items : List α)
  deriving DecidableEq

/-- What one condition tick reports to `wait.PollImmediate`. -/
inductive StepOut : Type where
  | done
  | keepPolling
  | fail
  deriving DecidableEq

/-- Terminal result of a bounded poll. -/
inductive PollOutcome : Type where
  | succeeded
  | errored
  | timedOut
  deriving DecidableEq

/-- `wait.PollImmediate` over a finite tick schedule, also counting the
fetches performed: `done` stops with success, `fail` stops with the error,
`keepPolling` consumes the tick, and an exhausted schedule is the timeout. -/
def runPoll {α : Type} (tick : α → StepOut) : List α → PollOutcome × Nat
  | [] => (.timedOut, 0)
  | r :: rest =>
    match tick r with
    | .done => (.succeeded, 1)
    | .fail => (.errored, 1)
    | .keepPolling =>
      let p := runPoll tick rest
      (p.1, p.2 + 1)

/-- `runPoll` for conditions that can crash (`none` = panic mid-tick). -/
def runPollF {α : Type} (tick : α → Option StepOut) : List α → Option (PollOutcome × Nat)
  | [] => some (.timedOut, 0)
  | r :: rest =>
    match tick r with
    | none => none
    | some .done => some (.succeeded, 1)
    | some .fail => some (.errored, 1)
    | some .keepPolling =>
      match runPollF tick rest with
      | none => none
      | some p => some (p.1, p.2 + 1)

/-- `resources.OpreqPhaseRunning` (images.go line 115). -/
def opreqPhaseRunning : String := "Running"

/-- `resources.OperandStatusReady` (images.go line 117). -/
def operandStatusReady : String := "Ready"

/-- `batchv1.Job` status as read by `WaitForJob`. -/
structure JobStatus where
  succeeded : Int
  deriving DecidableEq

/-- One entry of `OperandRequest.Status.Services`. -/
structure OperandService where
  operatorName : String
  ns : String
  status : String
  deriving DecidableEq

/-- `OperandRequest` status as read by the two OperandRequest waits. -/
structure OperandRequestStatus where
  phase : String
  services : List OperandService
  deriving DecidableEq

/-- `appsv1.Deployment` fields read by `WaitForDeploymentReady`.
`specReplicas` is the `*int32` pointer `Spec.Replicas`. -/
structure DeploymentInfo where
  name : String
  specReplicas : Option Int
  readyReplicas : Int
  deriving DecidableEq

/-- One condition tick of `WaitForJob` (utils.go 915-937): not-found keeps
polling, any other get error aborts, otherwise succeed once
`job.Status.Succeeded > 0`. -/
def waitForJobTick : GetOutcome JobStatus → StepOut
  | .notFound => .keepPolling
  | .otherError => .fail
  | .found j => if j.succeeded > 0 then .done else .keepPolling

/-- One condition tick of `WaitForOperatorReady` (utils.go 799-820). -/
def waitForOperatorReadyTick : GetOutcome OperandRequestStatus → StepOut
  | .notFound => .keepPolling
  | .otherError => .fail
  | .found o => if o.phase = opreqPhaseRunning then .done else .keepPolling

/-- One condition tick of `WaitForOperandReady` (utils.go 823-845): the get
error is returned unconditionally — there is no `IsNotFound` branch, so a
not-found fetch also aborts the wait. -/
def waitForOperandReadyTick : GetOutcome OperandRequestStatus → StepOut
  | .notFound => .fail
  | .otherError => .fail
  | .found o =>
    if o.services.all (fun s => s.status = operandStatusReady) then .done else .keepPolling

/-- One condition tick of `WaitForRediscp` (utils.go 848-874).  The `none`
result models the panic of the unchecked assertion
`redisCR.Object["status"].(map[string]interface{})` on a non-mapping status. -/
def waitForRediscpTick (compStatus : String) : GetOutcome JObj → Option StepOut
  | .notFound => some .keepPolling
  | .otherError => some .fail
  | .found o =>
    match getVal o "status" with
    | none => some .keepPolling
    | some (.obj st) =>
      if getVal st "redisStatus" = some (.str compStatus) then some .done
      else some .keepPolling
    | some _ => none

/-- One condition tick of `WaitForDeploymentReady` (utils.go 877-912): a list
error of any kind only logs and keeps polling; the first deployment whose
name starts with the label is examined, and `none` models the nil-pointer
dereference of `*matchedDeployment.Spec.Replicas`. -/
def waitForDeploymentReadyTick (label : String) : ListOutcome DeploymentInfo → Option StepOut
  | .listError => some .keepPolling
  | .listed ds =>
    match ds.find? (fun d => d.name.startsWith label) with
    | none => some .keepPolling
    | some d =>
      match d.specReplicas with
      | none => none
      | some desired =>
        some (if d.readyReplicas = desired then .done else .keepPolling)

/-!
## Proof infrastructure

Auxiliary structural functions used to characterize the merge folds, plus
named concrete documents used by counterexamples and witnesses.
-/

/-- Key-distinctness alone (the keys part of `wfO`). -/
def nodupKeys : JObj → Bool
  | .nil => true
  | .cons k _ rest => (getVal rest k).isNone && nodupKeys rest

/-- Object concatenation. -/
def appendO : JObj → JObj → JObj
  | .nil, b => b
  | .cons k v rest, b => .cons k v (appendO rest b)

/-- The value a binding `(k, cv)` of the changed side carries after one
`mergeFields df` pass: merged against `df`'s binding when `df` has one. -/
def mergeAgainst (df : JObj) (k : String) (cv : JValue) : Option JValue :=
  match getVal df k with
  | none => some cv
  | some dv => mergeVal dv cv

/-- The in-place part of a `mergeFields df cf` run: each binding of `cf`
keeps its key, with the value merged against `df`'s binding when `df` has
one. -/
def updAll (df : JObj) : JObj → Option JObj
  | .nil => some .nil
  | .cons k cv rest =>
    match mergeAgainst df k cv, updAll df rest with
    | some w, some r => some (.cons k w r)
    | _, _ => none

/-- The appended part of a `mergeFields df cf` run: the bindings of `df`
whose keys are absent from `cf`, in `df` order. -/
def extraOf : JObj → JObj → JObj
  | .nil, _ => .nil
  | .cons k v rest, cf =>
    if (getVal cf k).isSome then extraOf rest cf else .cons k v (extraOf rest cf)

/-- Value-wise override: each binding of `c` keeps its key, taking `d`'s
value when `d` binds the key. -/
def mapOver (d : JObj) : JObj → JObj
  | .nil => .nil
  | .cons k v rest => .cons k ((getVal d k).getD v) (mapOver d rest)

/-- Live document `{"metadata":{"labels":{"a":"live"}}}`. -/
def mLabelLive : JObj :=
  .cons "metadata" (.obj (.cons "labels" (.obj (.cons "a" (.str "live") .nil)) .nil)) .nil

/-- Template document `{"metadata":{"labels":{"a":"tpl"}}}`. -/
def mLabelTpl : JObj :=
  .cons "metadata" (.obj (.cons "labels" (.obj (.cons "a" (.str "tpl") .nil)) .nil)) .nil

/-- Live document `{"spec":[{"a":1,"b":2}]}`. -/
def seqLive : JObj :=
  .cons "spec" (.arr (.cons (.obj (.cons "a" (.num 1) (.cons "b" (.num 2) .nil))) .nil)) .nil

/-- Template document `{"spec":[{"a":9}]}`. -/
def seqTpl : JObj :=
  .cons "spec" (.arr (.cons (.obj (.cons "a" (.num 9) .nil)) .nil)) .nil

/-- Live document `{"spec":{"x":1}}`. -/
def nestLive : JObj := .cons "spec" (.obj (.cons "x" (.num 1) .nil)) .nil

/-- Template document `{"spec":2}`. -/
def nestTpl : JObj := .cons "spec" (.num 2) .nil

/-- Live document `{"s":[{"a":1}]}`. -/
def panicLive : JObj :=
  .cons "s" (.arr (.cons (.obj (.cons "a" (.num 1) .nil)) .nil)) .nil

/-- Template document `{"s":[2]}`. -/
def panicTpl : JObj := .cons "s" (.arr (.cons (.num 2) .nil)) .nil

/-- A small well-formed document used by witnesses. -/
def specAB : JObj :=
  .cons "spec" (.obj (.cons "a" (.str "1") (.cons "b" (.str "2") .nil))) .nil

/-- A second small well-formed document used by witnesses. -/
def specAC : JObj :=
  .cons "spec" (.obj (.cons "a" (.str "9") (.cons "c" (.str "3") .nil))) .nil

/-- Live document `{"metadata":{"annotations":{<fingerprint key>:"deadbeef1234"}}}`. -/
def annoLive : JObj :=
  .cons "metadata"
    (.obj (.cons "annotations" (.obj (.cons hashedDataKey (.str "deadbeef1234") .nil)) .nil)) .nil

/-- Scalar shapes (neither mapping nor sequence). -/
def isScalar : JValue → Bool
  | .str _ => true
  | .num _ => true
  | .boolean _ => true
  | _ => false

/-- `Merge({"spec":{"a":"1","b":"2"}}, {"spec":{"a":"9","c":"3"}})`:
the specification's concrete scenario result
`{"spec":{"a":"9","c":"3","b":"2"}}`. -/
def specMergedAC : JObj :=
  .cons "spec" (.obj (.cons "a" (.str "9") (.cons "c" (.str "3") (.cons "b" (.str "2") .nil)))) .nil

/-- Live metadata witness document:
`{"metadata":{"labels":{"a":"live"},"annotations":{"p":"lv"}},"x":1}`. -/
def wLive : JObj :=
  .cons "metadata"
    (.obj (.cons "labels" (.obj (.cons "a" (.str "live") .nil))
      (.cons "annotations" (.obj (.cons "p" (.str "lv") .nil)) .nil)))
    (.cons "x" (.num 1) .nil)

/-- Template metadata witness document:
`{"metadata":{"labels":{"a":"tpl","b":"t2"},"annotations":{"q":"tv"}}}`. -/
def wTpl : JObj :=
  .cons "metadata"
    (.obj (.cons "labels" (.obj (.cons "a" (.str "tpl") (.cons "b" (.str "t2") .nil)))
      (.cons "annotations" (.obj (.cons "q" (.str "tv") .nil)) .nil)))
    .nil

/-- The merge of `wLive` and `wTpl`: labels `{a:live,b:t2}` (live wins the
collision at `a`), annotations `{q:tv,p:lv}`, and the live-only key `x`. -/
def wMerged : JObj :=
  .cons "metadata"
    (.obj (.cons "labels" (.obj (.cons "a" (.str "live") (.cons "b" (.str "t2") .nil)))
      (.cons "annotations" (.obj (.cons "q" (.str "tv") (.cons "p" (.str "lv") .nil))) .nil)))
    (.cons "x" (.num 1) .nil)

/-- The key sequence of an object, in stored order. -/
def keysO : JObj → List String
  | .nil => []
  | .cons k _ rest => k :: keysO rest

/-!
## Theorems
-/

/-- Claim C1, as stated, is false: in `WaitForOperandReady` a not-found fetch
is returned as an error and aborts the wait instead of continuing to poll,
and in `WaitForDeploymentReady` a retrieval (list) error of any kind keeps
polling instead of terminating the wait. -/
theorem waitTick_uniformity_cex :
    waitForOperandReadyTick .notFound = .fail ∧
    waitForDeploymentReadyTick "mcsp-im-config-job" .listError = some .keepPolling ∧
    StepOut.fail ≠ StepOut.keepPolling :=
  ⟨rfl, rfl, by decide⟩

/-- Claim C1 (amended): in the job, Redis CR and OperandRequest
operator-readiness waits, a not-found fetch continues polling while any other
retrieval error terminates the wait immediately with an error and no further
fetch is performed; the OperandRequest operand-readiness wait terminates
immediately on every retrieval error, not-found included; and the deployment
wait continues polling on every list error. -/
theorem waitTick_error_policy
    (rest1 : List (GetOutcome JobStatus))
    (rest2 rest4 : List (GetOutcome OperandRequestStatus))
    (rest3 : List (GetOutcome JObj))
    (rest5 : List (ListOutcome DeploymentInfo))
    (s lbl : String) :
    (waitForJobTick .notFound = .keepPolling ∧
      waitForJobTick .otherError = .fail ∧
      runPoll waitForJobTick (.otherError :: rest1) = (.errored, 1)) ∧
    (waitForOperatorReadyTick .notFound = .keepPolling ∧
      waitForOperatorReadyTick .otherError = .fail ∧
      runPoll waitForOperatorReadyTick (.otherError :: rest2) = (.errored, 1)) ∧
    (waitForRediscpTick s .notFound = some .keepPolling ∧
      waitForRediscpTick s .otherError = some .fail ∧
      runPollF (waitForRediscpTick s) (.otherError :: rest3) = some (.errored, 1)) ∧
    (waitForOperandReadyTick .notFound = .fail ∧
      waitForOperandReadyTick .otherError = .fail ∧
      runPoll waitForOperandReadyTick (.notFound :: rest4) = (.errored, 1)) ∧
    (waitForDeploymentReadyTick lbl .listError = some .keepPolling ∧
      runPollF (waitForDeploymentReadyTick lbl) (.listError :: rest5) =
        (runPollF (waitForDeploymentReadyTick lbl) rest5).map (fun p => (p.1, p.2 + 1))) := by
  refine ⟨⟨rfl, rfl, by simp [runPoll, waitForJobTick]⟩,
    ⟨rfl, rfl, by simp [runPoll, waitForOperatorReadyTick]⟩,
    ⟨rfl, rfl, by simp [runPollF, waitForRediscpTick]⟩,
    ⟨rfl, rfl, by simp [runPoll, waitForOperandReadyTick]⟩,
    rfl, ?_⟩
  simp only [runPollF]
  cases runPollF (waitForDeploymentReadyTick lbl) rest5 <;> rfl

/-- Claim C7 (confirmed): with only one side provided, `MergeCR` returns the
provided document decoded; with neither provided, it returns the empty
document. -/
theorem mergeCR_single_sided (o : JObj) :
    MergeCR (.wellFormed o) .empty = some o ∧
    MergeCR .empty (.wellFormed o) = some o ∧
    MergeCR .empty .empty = some JObj.nil :=
  ⟨rfl, rfl, rfl⟩

/-- Claim C9 (confirmed): `CalculateHashes` is a pure read/compute operation:
the cluster and template documents stand unchanged at every return site, and
the explicit-state form computes the same result. -/
theorem calculateHashes_pure (c : Option JObj) (t : TDoc) :
    (CalculateHashesProg ⟨c, t⟩).2 = ⟨c, t⟩ ∧
    (CalculateHashesProg ⟨c, t⟩).1 = CalculateHashes c t := by
  cases t <;> cases c <;> simp [CalculateHashesProg, CalculateHashes]

theorem sha256_length (msg : List Nat) : (sha256 msg).length = 32 := by
  simp [sha256, wordBytes]

theorem hexEncode_length (bs : List Nat) : (hexEncode bs).length = 2 * bs.length := by
  induction bs with
  | nil => rfl
  | cons b rest ih =>
    simp only [hexEncode, String.length] at ih ⊢
    simp only [List.map_cons, List.flatten_cons, List.length_append, List.length_cons,
      List.length_nil, List.length_map] at ih ⊢
    omega

theorem templateHashOf_length (o : JObj) : (templateHashOf o).length = 14 := by
  have h := hexEncode_length ((sha256 (yamlMarshal o)).take 7)
  have h32 := sha256_length (yamlMarshal o)
  simp only [templateHashOf]
  rw [h, List.length_take, h32]
  norm_num

/-- Claim C8 (confirmed): `CalculateHashes` returns the fingerprint
annotation recorded on the live document (empty when the annotation map is
absent or no live document was passed) together with the 14-hex-character
truncation of the SHA-256 digest of the template's canonical serialization;
a template that fails to serialize is surfaced as the error. -/
theorem calculateHashes_spec (c o : JObj) (al : List (String × String)) :
    CalculateHashes (some c) (.marshalable o) = .ok (clusterHashOf c, templateHashOf o) ∧
    CalculateHashes none (.marshalable o) = .ok ("", templateHashOf o) ∧
    templateHashOf o = hexEncode ((sha256 (yamlMarshal o)).take 7) ∧
    (templateHashOf o).length = 14 ∧
    CalculateHashes (some c) .unmarshalable = .error () ∧
    CalculateHashes none .unmarshalable = .error () ∧
    (getAnnotations c = none → clusterHashOf c = "") ∧
    (getAnnotations c = some al → clusterHashOf c = lookupStr al hashedDataKey) := by
  refine ⟨rfl, rfl, rfl, templateHashOf_length o, rfl, rfl, ?_, ?_⟩
  · intro h
    simp [clusterHashOf, h]
  · intro h
    simp [clusterHashOf, h]

/-- Witness for `calculateHashes_spec`: the two annotation-retrieval
hypotheses hold at concrete documents, one without and one with a recorded
fingerprint (`"deadbeef1234"`, the specification's scenario). -/
theorem calculateHashes_spec_witness :
    (getAnnotations specAB = none ∧ clusterHashOf specAB = "") ∧
    (getAnnotations annoLive = some [(hashedDataKey, "deadbeef1234")] ∧
      clusterHashOf annoLive = "deadbeef1234") :=
  ⟨⟨by decide, by
      have h := (calculateHashes_spec specAB specAB []).2.2.2.2.2.2.1 (by decide)
      exact h⟩,
   ⟨by decide, by
      have h := (calculateHashes_spec annoLive specAB
        [(hashedDataKey, "deadbeef1234")]).2.2.2.2.2.2.2 (by decide)
      simpa using h⟩⟩

/-- Claim C10 (confirmed): a URL that parses and carries no explicit port
yields its hostname with the default Redis port `"6379"` and no error; a
string `net/url` rejects yields an error. -/
theorem getRedisInfo_spec (s e : String) (u : GoURL) :
    (urlParse s = .ok u → (splitHostPort u.host).2 = "" →
      GetRedisInfo s = .ok ((splitHostPort u.host).1, "6379")) ∧
    (urlParse s = .error e → GetRedisInfo s = .error ("error parsing redis URL: " ++ e)) := by
  constructor
  · intro hp hport
    simp [GetRedisInfo, hp, hport]
  · intro hp
    simp [GetRedisInfo, hp]

/-- Witness for `getRedisInfo_spec` at the repository's own test inputs:
`"redis://localhost/0"` has no port and resolves to `("localhost", "6379")`,
and `"://invalid"` fails to parse. -/
theorem getRedisInfo_spec_witness :
    (urlParse "redis://localhost/0" = .ok ⟨"redis", "localhost"⟩ ∧
      (splitHostPort "localhost").2 = "" ∧
      GetRedisInfo "redis://localhost/0" = .ok ("localhost", "6379")) ∧
    (urlParse "://invalid" = .error "missing protocol scheme" ∧
      GetRedisInfo "://invalid" = .error ("error parsing redis URL: " ++ "missing protocol scheme")) := by
  refine ⟨⟨by rfl, by decide, ?_⟩, ⟨by rfl, ?_⟩⟩
  · have h := (getRedisInfo_spec "redis://localhost/0" "" ⟨"redis", "localhost"⟩).1
      (by rfl) (by decide)
    simpa using h
  · have h := (getRedisInfo_spec "://invalid" "missing protocol scheme"
      ⟨"redis", "localhost"⟩).2 (by rfl)
    simpa using h

/-- Claim C2, as stated, is false: for the metadata key `a` present in both
labels maps with different values, the merged value is the live document's
`"live"`, not the template's `"tpl"` — `mergeMetadata` writes the
`defaultCR` (live) entries over the template's last. -/
theorem mergeMetadata_precedence_cex :
    (MergeResources mLabelLive mLabelTpl).bind
        (fun m => getPathO m ["metadata", "labels", "a"]) = some (.str "live") ∧
    JValue.str "live" ≠ JValue.str "tpl" := by
  constructor
  · decide
  · decide

/-- Claim C3, as stated, is false: at the key `spec`, present in both with
different sequence values, the merge result is the positional merge
`[{"a":9,"b":2}]`, not the template's value `[{"a":9}]`. -/
theorem mergeSequence_template_cex :
    (MergeResources seqLive seqTpl).bind (fun m => getVal m "spec") =
      some (.arr (.cons (.obj (.cons "a" (.num 9) (.cons "b" (.num 2) .nil))) .nil)) ∧
    getVal seqTpl "spec" = some (.arr (.cons (.obj (.cons "a" (.num 9) .nil)) .nil)) ∧
    JValue.arr (.cons (.obj (.cons "a" (.num 9) (.cons "b" (.num 2) .nil))) .nil) ≠
      JValue.arr (.cons (.obj (.cons "a" (.num 9) .nil)) .nil) := by
  refine ⟨by decide, by decide, by decide⟩

/-- Claim C4, as stated, is false: the nested key `spec.x` is present in the
live document and never mentioned by the template, yet it is absent from the
merge result, because the template replaces the whole `spec` subtree with a
non-mapping. -/
theorem mergePreserve_nested_cex :
    getPathO nestLive ["spec", "x"] = some (.num 1) ∧
    getPathO nestTpl ["spec", "x"] = none ∧
    getVal nestTpl "x" = none ∧
    (MergeResources nestLive nestTpl).bind (fun m => getPathO m ["spec", "x"]) = none ∧
    MergeResources nestLive nestTpl = some nestTpl := by
  refine ⟨by decide, by decide, by decide, by decide, by decide⟩

/-- Claim C6, as stated, is false: on this pair of well-formed inputs — a
sequence position holding a mapping on the live side and a scalar on the
template side — the merge aborts abnormally (a runtime panic of the
unchecked type assertion), surfacing a failure instead of any merged
document. -/
theorem mergeCR_panic_cex :
    MergeCR (.wellFormed panicLive) (.wellFormed panicTpl) = none ∧
    wfO panicLive = true ∧ wfO panicTpl = true := by
  refine ⟨by decide, by decide, by decide⟩

/-- Structural induction for `JObj` alone (the mutual recursor needs all
three motives; recursion into values is not needed here). -/
theorem JObj_indOn {motive : JObj → Prop} (hnil : motive .nil)
    (hcons : ∀ k v rest, motive rest → motive (.cons k v rest)) :
    ∀ o, motive o
  | .nil => hnil
  | .cons k v rest => hcons k v rest (JObj_indOn hnil hcons rest)

/-- Structural induction for `JArr` alone. -/
theorem JArr_indOn {motive : JArr → Prop} (hnil : motive .nil)
    (hcons : ∀ v rest, motive rest → motive (.cons v rest)) :
    ∀ a, motive a
  | .nil => hnil
  | .cons v rest => hcons v rest (JArr_indOn hnil hcons rest)

/-! ### Association-list lemmas -/

theorem getVal_setVal_self (o : JObj) (k : String) (v : JValue) :
    getVal (setVal o k v) k = some v := by
  induction o using JObj_indOn with
  | hnil => simp [setVal, getVal]
  | hcons k' v' rest ih =>
    by_cases h : k' = k
    · subst h; simp [setVal, getVal]
    · simp [setVal, getVal, h, ih]

theorem getVal_setVal_ne (o : JObj) (k : String) (v : JValue) (k2 : String)
    (h : k ≠ k2) : getVal (setVal o k v) k2 = getVal o k2 := by
  induction o using JObj_indOn with
  | hnil => simp [setVal, getVal, h]
  | hcons k' v' rest ih =>
    by_cases h' : k' = k
    · subst h'; simp [setVal, getVal, h]
    · simp only [setVal, if_neg h']
      by_cases h2 : k' = k2
      · subst h2; simp [getVal]
      · simp [getVal, h2, ih]

theorem setVal_of_getVal (o : JObj) (k : String) (v : JValue)
    (h : getVal o k = some v) : setVal o k v = o := by
  induction o using JObj_indOn with
  | hnil => simp [getVal] at h
  | hcons k' v' rest ih =>
    by_cases h' : k' = k
    · subst h'
      simp [getVal] at h
      simp [setVal, h]
    · simp only [getVal, if_neg h'] at h
      simp [setVal, h', ih h]

theorem isSome_getVal_setVal (o : JObj) (k : String) (v : JValue)
    (h : (getVal o k).isSome) (k2 : String) :
    (getVal (setVal o k v) k2).isSome = (getVal o k2).isSome := by
  by_cases hk : k = k2
  · subst hk
    simp [getVal_setVal_self, h]
  · simp [getVal_setVal_ne o k v k2 hk]

theorem appendO_nil_right (o : JObj) : appendO o .nil = o := by
  induction o using JObj_indOn with
  | hnil => rfl
  | hcons k v rest ih => simp [appendO, ih]

theorem appendO_assoc (a b c : JObj) :
    appendO (appendO a b) c = appendO a (appendO b c) := by
  induction a using JObj_indOn with
  | hnil => rfl
  | hcons k v rest ih => simp [appendO, ih]

theorem getVal_appendO (a b : JObj) (k : String) :
    getVal (appendO a b) k = (getVal a k).or (getVal b k) := by
  induction a using JObj_indOn with
  | hnil => simp [appendO, getVal]
  | hcons k' v rest ih =>
    by_cases h : k' = k
    · subst h; simp [appendO, getVal]
    · simp [appendO, getVal, h, ih]

theorem setVal_append_of_none (o : JObj) (k : String) (v : JValue)
    (h : getVal o k = none) : setVal o k v = appendO o (.cons k v .nil) := by
  induction o using JObj_indOn with
  | hnil => rfl
  | hcons k' v' rest ih =>
    by_cases h' : k' = k
    · subst h'; simp [getVal] at h
    · simp only [getVal, if_neg h'] at h
      simp [setVal, appendO, h', ih h]

theorem nodupKeys_setVal (o : JObj) (k : String) (v : JValue)
    (h : nodupKeys o = true) : nodupKeys (setVal o k v) = true := by
  induction o using JObj_indOn with
  | hnil => simp [setVal, nodupKeys, getVal]
  | hcons k' v' rest ih =>
    simp only [nodupKeys, Bool.and_eq_true] at h
    by_cases h' : k' = k
    · subst h'; simp [setVal, nodupKeys, h.1, h.2]
    · simp only [setVal, if_neg h', nodupKeys, Bool.and_eq_true]
      refine ⟨?_, ih h.2⟩
      by_cases hk : k = k'
      · exact absurd hk.symm h'
      · rw [getVal_setVal_ne rest k v k' hk]
        exact h.1

theorem nodupKeys_appendO_single (o : JObj) (k : String) (v : JValue)
    (h : nodupKeys o = true) (hk : getVal o k = none) :
    nodupKeys (appendO o (.cons k v .nil)) = true := by
  induction o using JObj_indOn with
  | hnil => simp [appendO, nodupKeys, getVal]
  | hcons k' v' rest ih =>
    simp only [nodupKeys, Bool.and_eq_true] at h
    simp only [getVal] at hk
    by_cases h' : k' = k
    · simp [if_pos h'] at hk
    · simp only [if_neg h'] at hk
      simp only [appendO, nodupKeys, Bool.and_eq_true]
      refine ⟨?_, ih h.2 hk⟩
      rw [getVal_appendO]
      simp only [getVal]
      have : ¬ (k = k') := fun hkk => h' hkk.symm
      simp [h.1, if_neg this]

/-! ### Characterizing the `mergeFields` fold -/

theorem nodupKeys_cons_iff (k : String) (v : JValue) (rest : JObj) :
    nodupKeys (.cons k v rest) = true ↔ getVal rest k = none ∧ nodupKeys rest = true := by
  simp only [nodupKeys, Bool.and_eq_true, Option.isNone_iff_eq_none]

theorem mergeAgainst_not_mem (df : JObj) (k : String) (cv : JValue)
    (h : getVal df k = none) : mergeAgainst df k cv = some cv := by
  simp [mergeAgainst, h]

theorem mergeAgainst_head_ne (k k0 : String) (dv cv : JValue) (rest : JObj)
    (h : k ≠ k0) : mergeAgainst (.cons k dv rest) k0 cv = mergeAgainst rest k0 cv := by
  simp [mergeAgainst, getVal, h]

theorem updAll_nil_left (cf : JObj) : updAll .nil cf = some cf := by
  induction cf using JObj_indOn with
  | hnil => rfl
  | hcons k cv rest ih =>
    simp [updAll, mergeAgainst_not_mem .nil k cv rfl, ih]

theorem updAll_head_skip (k : String) (dv : JValue) (rest cf : JObj)
    (h : getVal cf k = none) :
    updAll (.cons k dv rest) cf = updAll rest cf := by
  induction cf using JObj_indOn with
  | hnil => rfl
  | hcons k0 cv0 cf0 ih =>
    simp only [getVal] at h
    by_cases hk : k0 = k
    · simp [if_pos hk] at h
    · simp only [if_neg hk] at h
      have hne : k ≠ k0 := fun he => hk he.symm
      simp [updAll, mergeAgainst_head_ne k k0 dv cv0 rest hne, ih h]

theorem updAll_appendO (df a b : JObj) :
    updAll df (appendO a b) =
      match updAll df a, updAll df b with
      | some x, some y => some (appendO x y)
      | _, _ => none := by
  induction a using JObj_indOn with
  | hnil =>
    simp only [appendO, updAll]
    cases updAll df b <;> rfl
  | hcons k cv rest ih =>
    simp only [appendO, updAll, ih]
    cases mergeAgainst df k cv <;> cases updAll df rest <;> cases updAll df b <;> rfl

theorem updAll_single_not_mem (df : JObj) (k : String) (v : JValue)
    (h : getVal df k = none) :
    updAll df (.cons k v .nil) = some (.cons k v .nil) := by
  simp [updAll, mergeAgainst_not_mem df k v h]

theorem updAll_fail (df cf : JObj) (k : String) (dv cv : JValue)
    (hcf : getVal cf k = some cv) (hdf : getVal df k = some dv)
    (hm : mergeVal dv cv = none) : updAll df cf = none := by
  induction cf using JObj_indOn with
  | hnil => simp [getVal] at hcf
  | hcons k0 cv0 cf0 ih =>
    simp only [getVal] at hcf
    by_cases hk : k0 = k
    · subst hk
      have hcv : cv0 = cv := by simpa using hcf
      subst hcv
      simp [updAll, mergeAgainst, hdf, hm]
    · simp only [if_neg hk] at hcf
      simp only [updAll, ih hcf]
      cases mergeAgainst df k0 cv0 <;> rfl

theorem updAll_setVal_shift (cf : JObj) (k : String) (dv cv w : JValue) (rest : JObj)
    (hnd : nodupKeys cf = true) (hcf : getVal cf k = some cv)
    (hrest : getVal rest k = none) (hm : mergeVal dv cv = some w) :
    updAll rest (setVal cf k w) = updAll (.cons k dv rest) cf := by
  induction cf using JObj_indOn with
  | hnil => simp [getVal] at hcf
  | hcons k0 cv0 cf0 ih =>
    rw [nodupKeys_cons_iff] at hnd
    simp only [getVal] at hcf
    by_cases hk : k0 = k
    · subst hk
      have hcv : cv0 = cv := by simpa using hcf
      subst hcv
      simp only [setVal, if_pos rfl, updAll]
      rw [mergeAgainst_not_mem rest k0 w hrest]
      have h1 : mergeAgainst (.cons k0 dv rest) k0 cv0 = some w := by
        simp [mergeAgainst, getVal, hm]
      rw [h1, updAll_head_skip k0 dv rest cf0 hnd.1]
    · simp only [if_neg hk] at hcf
      simp only [setVal, if_neg hk, updAll]
      have hne : k ≠ k0 := fun he => hk he.symm
      rw [mergeAgainst_head_ne k k0 dv cv0 rest hne, ih hnd.2 hcf]

theorem extraOf_ext (r cfA cfB : JObj)
    (h : ∀ k2, (getVal r k2).isSome = true →
      (getVal cfA k2).isSome = (getVal cfB k2).isSome) :
    extraOf r cfA = extraOf r cfB := by
  induction r using JObj_indOn with
  | hnil => rfl
  | hcons k v rest ih =>
    have hk : (getVal cfA k).isSome = (getVal cfB k).isSome := by
      refine h k ?_
      simp [getVal]
    have htail : extraOf rest cfA = extraOf rest cfB := by
      refine ih (fun k2 h2 => h k2 ?_)
      simp only [getVal]
      by_cases he : k = k2 <;> simp [he, h2]
    simp only [extraOf, hk, htail]

theorem extraOf_nil_right (df : JObj) : extraOf df .nil = df := by
  induction df using JObj_indOn with
  | hnil => rfl
  | hcons k v rest ih => simp [extraOf, getVal, ih]

theorem getVal_extraOf_none (df cf : JObj) (k : String)
    (h : getVal df k = none) : getVal (extraOf df cf) k = none := by
  induction df using JObj_indOn with
  | hnil => simp [extraOf, getVal]
  | hcons k0 v0 rest ih =>
    simp only [getVal] at h
    by_cases hk : k0 = k
    · simp [if_pos hk] at h
    · simp only [if_neg hk] at h
      simp only [extraOf]
      by_cases hc : (getVal cf k0).isSome
      · simp [hc, ih h]
      · simp [hc, getVal, hk, ih h]

theorem getVal_extraOf (df cf : JObj) (k : String) (hdf : nodupKeys df = true) :
    getVal (extraOf df cf) k =
      if (getVal cf k).isSome then none else getVal df k := by
  induction df using JObj_indOn with
  | hnil => simp [extraOf, getVal]
  | hcons k0 v0 rest ih =>
    rw [nodupKeys_cons_iff] at hdf
    by_cases hk : k0 = k
    · subst hk
      simp only [extraOf, getVal, if_pos rfl]
      by_cases hc : (getVal cf k0).isSome
      · simp [hc, getVal_extraOf_none rest cf k0 hdf.1]
      · simp [hc, getVal]
    · simp only [extraOf, getVal, if_neg hk]
      by_cases hc : (getVal cf k0).isSome
      · simp [hc, ih hdf.2]
      · simp [hc, getVal, if_neg hk, ih hdf.2]

/-- Characterization of the `mergeFields` fold: on key-distinct inputs the
result is the changed side with values merged in place, followed by the
default side's bindings at keys the changed side lacks, in default order. -/
theorem mergeFields_char (df : JObj) : ∀ cf : JObj, nodupKeys df = true → nodupKeys cf = true →
    mergeFields df cf = (updAll df cf).map (fun u => appendO u (extraOf df cf)) := by
  induction df using JObj_indOn with
  | hnil =>
    intro cf _ _
    simp [mergeFields, updAll_nil_left, extraOf, appendO_nil_right]
  | hcons k dv rest ih =>
    intro cf hdf hcf
    rw [nodupKeys_cons_iff] at hdf
    cases hcfk : getVal cf k with
    | none =>
      have hset := setVal_append_of_none cf k dv hcfk
      have hstep : mergeFields (.cons k dv rest) cf = mergeFields rest (setVal cf k dv) := by
        simp [mergeFields, hcfk]
      rw [hstep, hset, ih (appendO cf (.cons k dv .nil)) hdf.2
        (nodupKeys_appendO_single cf k dv hcf hcfk)]
      rw [updAll_appendO rest cf (.cons k dv .nil),
        updAll_single_not_mem rest k dv hdf.1]
      have hex : extraOf rest (appendO cf (.cons k dv .nil)) = extraOf rest cf := by
        refine extraOf_ext rest _ cf (fun k2 h2 => ?_)
        rw [getVal_appendO]
        have hne : ¬ (k = k2) := by
          intro he
          subst he
          rw [hdf.1] at h2
          simp at h2
        cases hv : getVal cf k2 <;> simp [hv, getVal, hne]
      rw [hex]
      have hupd : updAll (.cons k dv rest) cf = updAll rest cf :=
        updAll_head_skip k dv rest cf hcfk
      have hexd : extraOf (.cons k dv rest) cf = .cons k dv (extraOf rest cf) := by
        simp [extraOf, hcfk]
      rw [hupd, hexd]
      cases updAll rest cf with
      | none => rfl
      | some u => simp [appendO_assoc, appendO]
    | some cv =>
      cases hm : mergeVal dv cv with
      | none =>
        have hl : mergeFields (.cons k dv rest) cf = none := by
          simp [mergeFields, hcfk, hm]
        rw [hl, updAll_fail (.cons k dv rest) cf k dv cv hcfk (by simp [getVal]) hm]
        rfl
      | some w =>
        have hstep : mergeFields (.cons k dv rest) cf = mergeFields rest (setVal cf k w) := by
          simp [mergeFields, hcfk, hm]
        rw [hstep, ih (setVal cf k w) hdf.2 (nodupKeys_setVal cf k w hcf)]
        rw [updAll_setVal_shift cf k dv cv w rest hcf hcfk hdf.1 hm]
        have hex : extraOf rest (setVal cf k w) = extraOf rest cf := by
          refine extraOf_ext rest _ cf (fun k2 h2 => ?_)
          exact isSome_getVal_setVal cf k w (by simp [hcfk]) k2
        have hexd : extraOf (.cons k dv rest) cf = extraOf rest cf := by
          simp [extraOf, hcfk]
        rw [hex, hexd]

theorem getVal_updAll_none (df cf u : JObj) (k : String)
    (hu : updAll df cf = some u) (h : getVal cf k = none) : getVal u k = none := by
  induction cf using JObj_indOn generalizing u with
  | hnil =>
    simp only [updAll, Option.some.injEq] at hu
    subst hu
    rfl
  | hcons k0 cv0 cf0 ih =>
    simp only [getVal] at h
    by_cases hk : k0 = k
    · simp [if_pos hk] at h
    · simp only [if_neg hk] at h
      simp only [updAll] at hu
      cases hma : mergeAgainst df k0 cv0 with
      | none => rw [hma] at hu; simp at hu
      | some w =>
        rw [hma] at hu
        cases hrec : updAll df cf0 with
        | none => rw [hrec] at hu; simp at hu
        | some r =>
          rw [hrec] at hu
          simp only [Option.some.injEq] at hu
          subst hu
          simp [getVal, hk, ih r hrec h]

theorem getVal_updAll_some (df cf u : JObj) (k : String) (cv : JValue)
    (hnd : nodupKeys cf = true) (hu : updAll df cf = some u)
    (h : getVal cf k = some cv) : getVal u k = mergeAgainst df k cv := by
  induction cf using JObj_indOn generalizing u with
  | hnil => simp [getVal] at h
  | hcons k0 cv0 cf0 ih =>
    rw [nodupKeys_cons_iff] at hnd
    simp only [getVal] at h
    simp only [updAll] at hu
    cases hma : mergeAgainst df k0 cv0 with
    | none => rw [hma] at hu; simp at hu
    | some w =>
      rw [hma] at hu
      cases hrec : updAll df cf0 with
      | none => rw [hrec] at hu; simp at hu
      | some r =>
        rw [hrec] at hu
        simp only [Option.some.injEq] at hu
        subst hu
        by_cases hk : k0 = k
        · subst hk
          have hcv : cv0 = cv := by simpa using h
          subst hcv
          simp [getVal, hma]
        · simp only [if_neg hk] at h
          simp [getVal, hk, ih r hnd.2 hrec h]

theorem isSome_getVal_updAll (df cf u : JObj) (k : String)
    (hu : updAll df cf = some u) :
    (getVal u k).isSome = (getVal cf k).isSome := by
  induction cf using JObj_indOn generalizing u with
  | hnil =>
    simp only [updAll, Option.some.injEq] at hu
    subst hu
    rfl
  | hcons k0 cv0 cf0 ih =>
    simp only [updAll] at hu
    cases hma : mergeAgainst df k0 cv0 with
    | none => rw [hma] at hu; simp at hu
    | some w =>
      rw [hma] at hu
      cases hrec : updAll df cf0 with
      | none => rw [hrec] at hu; simp at hu
      | some r =>
        rw [hrec] at hu
        simp only [Option.some.injEq] at hu
        subst hu
        by_cases hk : k0 = k
        · simp [getVal, hk]
        · simp [getVal, hk, ih r hrec]

/-- Unpacked form of `mergeFields_char`. -/
theorem mergeFields_split (df cf r : JObj)
    (hdf : nodupKeys df = true) (hcf : nodupKeys cf = true)
    (h : mergeFields df cf = some r) :
    ∃ u, updAll df cf = some u ∧ r = appendO u (extraOf df cf) := by
  rw [mergeFields_char df cf hdf hcf] at h
  cases hu : updAll df cf with
  | none => rw [hu] at h; simp at h
  | some u =>
    rw [hu] at h
    simp only [Option.map_some', Option.some.injEq] at h
    exact ⟨u, rfl, h.symm⟩

/-- A key the default side lacks keeps the changed side's binding. -/
theorem mergeFields_getVal_df_absent (df cf r : JObj) (k : String)
    (hdf : nodupKeys df = true) (hcf : nodupKeys cf = true)
    (h : mergeFields df cf = some r) (hk : getVal df k = none) :
    getVal r k = getVal cf k := by
  obtain ⟨u, hu, hr⟩ := mergeFields_split df cf r hdf hcf h
  subst hr
  rw [getVal_appendO, getVal_extraOf df cf k hdf]
  cases hc : getVal cf k with
  | none => simp [getVal_updAll_none df cf u k hu hc, hc, hk]
  | some cv =>
    rw [getVal_updAll_some df cf u k cv hcf hu hc, mergeAgainst_not_mem df k cv hk]
    simp [hc]

/-- A key only the default side has is copied over with its value. -/
theorem mergeFields_getVal_live_only (df cf r : JObj) (k : String) (dv : JValue)
    (hdf : nodupKeys df = true) (hcf : nodupKeys cf = true)
    (h : mergeFields df cf = some r) (hk : getVal df k = some dv)
    (hc : getVal cf k = none) : getVal r k = some dv := by
  obtain ⟨u, hu, hr⟩ := mergeFields_split df cf r hdf hcf h
  subst hr
  rw [getVal_appendO, getVal_extraOf df cf k hdf]
  simp [getVal_updAll_none df cf u k hu hc, hc, hk]

/-- A key both sides have carries the `mergeVal` of the two bindings. -/
theorem mergeFields_getVal_both (df cf r : JObj) (k : String) (dv cv : JValue)
    (hdf : nodupKeys df = true) (hcf : nodupKeys cf = true)
    (h : mergeFields df cf = some r) (hk : getVal df k = some dv)
    (hc : getVal cf k = some cv) :
    ∃ w, mergeVal dv cv = some w ∧ getVal r k = some w := by
  obtain ⟨u, hu, hr⟩ := mergeFields_split df cf r hdf hcf h
  subst hr
  rw [getVal_appendO]
  rw [getVal_updAll_some df cf u k cv hcf hu hc]
  simp only [mergeAgainst, hk]
  cases hm : mergeVal dv cv with
  | none =>
    exfalso
    have := updAll_fail df cf k dv cv hc hk hm
    rw [this] at hu
    exact Option.noConfusion hu
  | some w => exact ⟨w, rfl, rfl⟩

/-- Keys of the merge result: union of the two sides' keys. -/
theorem isSome_getVal_mergeFields (df cf r : JObj) (k : String)
    (hdf : nodupKeys df = true) (hcf : nodupKeys cf = true)
    (h : mergeFields df cf = some r) :
    (getVal r k).isSome = ((getVal cf k).isSome || (getVal df k).isSome) := by
  obtain ⟨u, hu, hr⟩ := mergeFields_split df cf r hdf hcf h
  subst hr
  rw [getVal_appendO, getVal_extraOf df cf k hdf]
  have hus := isSome_getVal_updAll df cf u k hu
  cases hc : getVal cf k with
  | none =>
    rw [hc] at hus
    cases hu2 : getVal u k
    · simp
    · rw [hu2] at hus; simp at hus
  | some cv =>
    rw [hc] at hus
    cases hu2 : getVal u k
    · rw [hu2] at hus; simp at hus
    · simp

/-! ### `putAll`, well-formedness, and `mergeMetadata` lemmas -/

theorem getVal_putAll_not_mem (d : JObj) : ∀ c : JObj, ∀ k : String,
    getVal d k = none → getVal (putAll c d) k = getVal c k := by
  induction d using JObj_indOn with
  | hnil => intro c k _; rfl
  | hcons k0 v0 rest ih =>
    intro c k h
    simp only [getVal] at h
    by_cases hk : k0 = k
    · simp [if_pos hk] at h
    · simp only [if_neg hk] at h
      simp only [putAll]
      rw [ih (setVal c k0 v0) k h, getVal_setVal_ne c k0 v0 k hk]

theorem getVal_putAll_mem (d : JObj) : ∀ c : JObj, ∀ k : String, ∀ v : JValue,
    nodupKeys d = true → getVal d k = some v → getVal (putAll c d) k = some v := by
  induction d using JObj_indOn with
  | hnil => intro c k v _ h; simp [getVal] at h
  | hcons k0 v0 rest ih =>
    intro c k v hnd h
    rw [nodupKeys_cons_iff] at hnd
    simp only [getVal] at h
    by_cases hk : k0 = k
    · subst hk
      have hv : v0 = v := by simpa using h
      subst hv
      simp only [putAll]
      rw [getVal_putAll_not_mem rest (setVal c k0 v0) k0 hnd.1,
        getVal_setVal_self c k0 v0]
    · simp only [if_neg hk] at h
      simp only [putAll]
      exact ih (setVal c k0 v0) k v hnd.2 h

theorem putAll_eq_of_subset (d : JObj) : ∀ c : JObj, nodupKeys d = true →
    (∀ k v, getVal d k = some v → getVal c k = some v) → putAll c d = c := by
  induction d using JObj_indOn with
  | hnil => intro c _ _; rfl
  | hcons k0 v0 rest ih =>
    intro c hnd hsub
    rw [nodupKeys_cons_iff] at hnd
    have hc0 : getVal c k0 = some v0 := hsub k0 v0 (by simp [getVal])
    simp only [putAll]
    rw [setVal_of_getVal c k0 v0 hc0]
    refine ih c hnd.2 (fun k v hk => hsub k v ?_)
    simp only [getVal]
    by_cases he : k0 = k
    · subst he; rw [hnd.1] at hk; exact Option.noConfusion hk
    · simp [if_neg he, hk]

theorem putAll_self (l : JObj) (h : nodupKeys l = true) : putAll l l = l :=
  putAll_eq_of_subset l l h (fun _ _ hk => hk)

theorem wfO_cons_iff (k : String) (v : JValue) (rest : JObj) :
    wfO (.cons k v rest) = true ↔
      getVal rest k = none ∧ wfV v = true ∧ wfO rest = true := by
  simp only [wfO, Bool.and_eq_true, Option.isNone_iff_eq_none, and_assoc]

theorem nodupKeys_of_wfO (o : JObj) (h : wfO o = true) : nodupKeys o = true := by
  induction o using JObj_indOn with
  | hnil => rfl
  | hcons k v rest ih =>
    rw [wfO_cons_iff] at h
    rw [nodupKeys_cons_iff]
    exact ⟨h.1, ih h.2.2⟩

theorem wfV_getVal (o : JObj) : ∀ k v, wfO o = true → getVal o k = some v → wfV v = true := by
  induction o using JObj_indOn with
  | hnil => intro k v _ h; simp [getVal] at h
  | hcons k0 v0 rest ih =>
    intro k v hwf h
    rw [wfO_cons_iff] at hwf
    simp only [getVal] at h
    by_cases hk : k0 = k
    · have hv : v0 = v := by simpa [if_pos hk] using h
      subst hv
      exact hwf.2.1
    · simp only [if_neg hk] at h
      exact ih k v hwf.2.2 h

theorem wfO_setVal (o : JObj) : ∀ k v, wfO o = true → wfV v = true →
    wfO (setVal o k v) = true := by
  induction o using JObj_indOn with
  | hnil => intro k v _ hv; simp [setVal, wfO, getVal, hv]
  | hcons k0 v0 rest ih =>
    intro k v hwf hv
    rw [wfO_cons_iff] at hwf
    by_cases hk : k0 = k
    · subst hk
      have hset : setVal (.cons k0 v0 rest) k0 v = .cons k0 v rest := by simp [setVal]
      rw [hset, wfO_cons_iff]
      exact ⟨hwf.1, hv, hwf.2.2⟩
    · simp only [setVal, if_neg hk]
      rw [wfO_cons_iff]
      refine ⟨?_, hwf.2.1, ih k v hwf.2.2 hv⟩
      by_cases he : k = k0
      · exact absurd he.symm hk
      · rw [getVal_setVal_ne rest k v k0 he]
        exact hwf.1

theorem wfO_putAll (d : JObj) : ∀ c : JObj, nodupKeys d = true → wfO c = true →
    (∀ k v, getVal d k = some v → wfV v = true) → wfO (putAll c d) = true := by
  induction d using JObj_indOn with
  | hnil => intro c _ hc _; exact hc
  | hcons k0 v0 rest ih =>
    intro c hnd hc hv
    rw [nodupKeys_cons_iff] at hnd
    simp only [putAll]
    refine ih (setVal c k0 v0) hnd.2
      (wfO_setVal c k0 v0 hc (hv k0 v0 (by simp [getVal]))) ?_
    intro k v hk
    refine hv k v ?_
    simp only [getVal]
    by_cases he : k0 = k
    · subst he
      rw [hnd.1] at hk
      exact Option.noConfusion hk
    · simp [if_neg he, hk]

mutual

theorem wfV_mergeVal (d : JValue) : ∀ c w, wfV d = true → wfV c = true →
    mergeVal d c = some w → wfV w = true := by
  intro c w hd hc h
  by_cases he : d = c
  · unfold mergeVal at h
    rw [if_pos he] at h
    have : c = w := by simpa using h
    subst this; exact hc
  · cases d with
    | obj df =>
      cases c with
      | obj cf =>
        unfold mergeVal at h <;> rw [if_neg he] at h
        dsimp only [] at h
        cases hm : mergeFields df cf with
        | none => rw [hm] at h; simp at h
        | some rf =>
          rw [hm] at h
          have : JValue.obj rf = w := by simpa using h
          subst this
          exact wfO_mergeFields df cf rf hd hc hm
      | str s => unfold mergeVal at h <;> rw [if_neg he] at h
                 have : JValue.str s = w := by simpa using h
                 subst this; exact hc
      | num n => unfold mergeVal at h <;> rw [if_neg he] at h
                 have : JValue.num n = w := by simpa using h
                 subst this; exact hc
      | boolean b => unfold mergeVal at h <;> rw [if_neg he] at h
                     have : JValue.boolean b = w := by simpa using h
                     subst this; exact hc
      | arr a => unfold mergeVal at h <;> rw [if_neg he] at h
                 have : JValue.arr a = w := by simpa using h
                 subst this; exact hc
    | arr ds =>
      cases c with
      | arr cs =>
        unfold mergeVal at h <;> rw [if_neg he] at h
        dsimp only [] at h
        cases hm : mergeElems ds cs with
        | none => rw [hm] at h; simp at h
        | some ws =>
          rw [hm] at h
          have : JValue.arr ws = w := by simpa using h
          subst this
          exact wfA_mergeElems ds cs ws hd hc hm
      | str s => unfold mergeVal at h <;> rw [if_neg he] at h
                 have : JValue.str s = w := by simpa using h
                 subst this; exact hc
      | num n => unfold mergeVal at h <;> rw [if_neg he] at h
                 have : JValue.num n = w := by simpa using h
                 subst this; exact hc
      | boolean b => unfold mergeVal at h <;> rw [if_neg he] at h
                     have : JValue.boolean b = w := by simpa using h
                     subst this; exact hc
      | obj o => unfold mergeVal at h <;> rw [if_neg he] at h
                 have : JValue.obj o = w := by simpa using h
                 subst this; exact hc
    | str s => unfold mergeVal at h <;> rw [if_neg he] at h
               have : c = w := by cases c <;> simpa using h
               subst this; exact hc
    | num n => unfold mergeVal at h <;> rw [if_neg he] at h
               have : c = w := by cases c <;> simpa using h
               subst this; exact hc
    | boolean b => unfold mergeVal at h <;> rw [if_neg he] at h
                   have : c = w := by cases c <;> simpa using h
                   subst this; exact hc
termination_by sizeOf d

theorem wfO_mergeFields (df : JObj) : ∀ cf r, wfO df = true → wfO cf = true →
    mergeFields df cf = some r → wfO r = true := by
  intro cf r hd hc h
  match df with
  | .nil =>
    unfold mergeFields at h
    have : cf = r := by simpa using h
    subst this; exact hc
  | .cons k dv rest =>
    rw [wfO_cons_iff] at hd
    unfold mergeFields at h
    cases hcfk : getVal cf k with
    | none =>
      rw [hcfk] at h
      dsimp only [] at h
      exact wfO_mergeFields rest (setVal cf k dv) r hd.2.2
        (wfO_setVal cf k dv hc hd.2.1) h
    | some cv =>
      rw [hcfk] at h
      dsimp only [] at h
      cases hm : mergeVal dv cv with
      | none => rw [hm] at h; simp at h
      | some w =>
        rw [hm] at h
        have hwv : wfV w = true :=
          wfV_mergeVal dv cv w hd.2.1 (wfV_getVal cf k cv hc hcfk) hm
        exact wfO_mergeFields rest (setVal cf k w) r hd.2.2
          (wfO_setVal cf k w hc hwv) h
termination_by sizeOf df

theorem wfA_mergeElems (ds : JArr) : ∀ cs ws, wfA ds = true → wfA cs = true →
    mergeElems ds cs = some ws → wfA ws = true := by
  intro cs ws hd hc h
  match ds with
  | .nil =>
    unfold mergeElems at h
    have : cs = ws := by simpa using h
    subst this; exact hc
  | .cons d drest =>
    match cs with
    | .nil =>
      unfold mergeElems at h
      have : JArr.nil = ws := by simpa using h
      subst this; rfl
    | .cons c crest =>
      simp only [wfA, Bool.and_eq_true] at hd hc
      unfold mergeElems at h
      cases hme : mergeElem d c with
      | none => rw [hme] at h; simp at h
      | some w =>
        rw [hme] at h
        cases hrec : mergeElems drest crest with
        | none => rw [hrec] at h; simp at h
        | some wrest =>
          rw [hrec] at h
          have : JArr.cons w wrest = ws := by simpa using h
          subst this
          simp only [wfA, Bool.and_eq_true]
          exact ⟨wfV_mergeElem d c w hd.1 hc.1 hme,
            wfA_mergeElems drest crest wrest hd.2 hc.2 hrec⟩
termination_by sizeOf ds

theorem wfV_mergeElem (d : JValue) : ∀ c w, wfV d = true → wfV c = true →
    mergeElem d c = some w → wfV w = true := by
  intro c w hd hc h
  match d with
  | .obj .nil =>
    unfold mergeElem at h
    have : c = w := by simpa using h
    subst this; exact hc
  | .obj (.cons k0 v0 df0) =>
    unfold mergeElem at h
    cases c with
    | obj cf =>
      dsimp only [] at h
      cases hm : mergeFields (.cons k0 v0 df0) cf with
      | none => rw [hm] at h; simp at h
      | some rf =>
        rw [hm] at h
        simp only [Option.map_some', Option.some.injEq] at h
        subst h
        exact wfO_mergeFields (.cons k0 v0 df0) cf rf hd hc hm
    | str s => simp at h
    | num n => simp at h
    | boolean b => simp at h
    | arr a => simp at h
  | .str s =>
    have hcw : c = w := by simpa [mergeElem] using h
    subst hcw; exact hc
  | .num n =>
    have hcw : c = w := by simpa [mergeElem] using h
    subst hcw; exact hc
  | .boolean b =>
    have hcw : c = w := by simpa [mergeElem] using h
    subst hcw; exact hc
  | .arr a =>
    have hcw : c = w := by simpa [mergeElem] using h
    subst hcw; exact hc
termination_by sizeOf d

end

/-! ### Self-merge absorption -/

theorem sizeOf_getVal (o : JObj) : ∀ k v, getVal o k = some v → sizeOf v < sizeOf o := by
  induction o using JObj_indOn with
  | hnil => intro k v h; simp [getVal] at h
  | hcons k0 v0 rest ih =>
    intro k v h
    simp only [getVal] at h
    by_cases hk : k0 = k
    · have hv : v0 = v := by simpa [if_pos hk] using h
      subst hv
      simp only [JObj.cons.sizeOf_spec]
      omega
    · simp only [if_neg hk] at h
      have := ih k v h
      simp only [JObj.cons.sizeOf_spec]
      omega

theorem mergeVal_refl (c : JValue) : mergeVal c c = some c := by
  unfold mergeVal
  simp

theorem extraOf_subset_nil (e cf : JObj)
    (h : ∀ k, (getVal e k).isSome = true → (getVal cf k).isSome = true) :
    extraOf e cf = .nil := by
  induction e using JObj_indOn with
  | hnil => rfl
  | hcons k0 v0 rest ih =>
    have hk0 : (getVal cf k0).isSome = true := h k0 (by simp [getVal])
    simp only [extraOf, hk0, if_pos]
    refine ih (fun k hk => h k ?_)
    simp only [getVal]
    by_cases he : k0 = k <;> simp [he, hk]

theorem extraOf_of_disjoint (e cf : JObj)
    (h : ∀ k, (getVal e k).isSome = true → getVal cf k = none) :
    extraOf e cf = e := by
  induction e using JObj_indOn with
  | hnil => rfl
  | hcons k0 v0 rest ih =>
    have hk0 : getVal cf k0 = none := h k0 (by simp [getVal])
    have htail : extraOf rest cf = rest := by
      refine ih (fun k hk => h k ?_)
      simp only [getVal]
      by_cases he : k0 = k <;> simp [he, hk]
    simp [extraOf, hk0, htail]

theorem extraOf_appendO (a b cf : JObj) :
    extraOf (appendO a b) cf = appendO (extraOf a cf) (extraOf b cf) := by
  induction a using JObj_indOn with
  | hnil => rfl
  | hcons k0 v0 rest ih =>
    simp only [appendO, extraOf, ih]
    by_cases hc : (getVal cf k0).isSome <;> simp [hc, appendO]

theorem updAll_of_submap (d : JObj) : ∀ c2 : JObj, nodupKeys c2 = true →
    (∀ k v, getVal c2 k = some v → mergeAgainst d k v = some v) →
    updAll d c2 = some c2 := by
  intro c2
  induction c2 using JObj_indOn with
  | hnil => intro _ _; rfl
  | hcons k0 v0 rest ih =>
    intro hnd h
    rw [nodupKeys_cons_iff] at hnd
    have h0 : mergeAgainst d k0 v0 = some v0 := h k0 v0 (by simp [getVal])
    have htail : updAll d rest = some rest := by
      refine ih hnd.2 (fun k v hk => h k v ?_)
      simp only [getVal]
      by_cases he : k0 = k
      · subst he; rw [hnd.1] at hk; exact Option.noConfusion hk
      · simp [if_neg he, hk]
    simp [updAll, h0, htail]

theorem updAll_self (cf : JObj) (h : nodupKeys cf = true) : updAll cf cf = some cf := by
  refine updAll_of_submap cf cf h (fun k v hk => ?_)
  simp [mergeAgainst, hk, mergeVal_refl]

theorem mergeFields_self (cf : JObj) (h : nodupKeys cf = true) :
    mergeFields cf cf = some cf := by
  rw [mergeFields_char cf cf h h, updAll_self cf h,
    extraOf_subset_nil cf cf (fun _ hk => hk)]
  simp [appendO_nil_right]

theorem mergeElem_refl (v : JValue) (h : wfV v = true) : mergeElem v v = some v := by
  cases v with
  | obj o =>
    cases o with
    | nil => rfl
    | cons k0 v0 rest =>
      unfold mergeElem
      dsimp only []
      rw [mergeFields_self (.cons k0 v0 rest) (nodupKeys_of_wfO _ h)]
      rfl
  | str s => rfl
  | num n => rfl
  | boolean b => rfl
  | arr a => rfl

theorem mergeElems_self (cs : JArr) (h : wfA cs = true) : mergeElems cs cs = some cs := by
  induction cs using JArr_indOn with
  | hnil => rfl
  | hcons v rest ih =>
    simp only [wfA, Bool.and_eq_true] at h
    unfold mergeElems
    rw [mergeElem_refl v h.1, ih h.2]

theorem mergeVal_obj_obj (a b : JObj) (hb : nodupKeys b = true) :
    mergeVal (.obj a) (.obj b) = (mergeFields a b).map .obj := by
  by_cases he : (JValue.obj a) = .obj b
  · have hab : a = b := by injection he
    subst hab
    unfold mergeVal
    rw [if_pos rfl, mergeFields_self a hb]
    rfl
  · unfold mergeVal
    rw [if_neg he]

theorem mergeVal_arr_arr (a b : JArr) (hb : wfA b = true) :
    mergeVal (.arr a) (.arr b) = (mergeElems a b).map .arr := by
  by_cases he : (JValue.arr a) = .arr b
  · have hab : a = b := by injection he
    subst hab
    unfold mergeVal
    rw [if_pos rfl, mergeElems_self a hb]
    rfl
  · unfold mergeVal
    rw [if_neg he]

theorem updAll_reapply (r d : JObj) : ∀ cf u : JObj, nodupKeys cf = true →
    updAll d cf = some u →
    (∀ k cv w, getVal cf k = some cv → mergeAgainst d k cv = some w →
      mergeAgainst r k cv = some w) →
    updAll r cf = some u := by
  intro cf
  induction cf using JObj_indOn with
  | hnil =>
    intro u _ hu _
    simpa [updAll] using hu
  | hcons k0 cv0 rest ih =>
    intro u hnd hu hyp
    rw [nodupKeys_cons_iff] at hnd
    simp only [updAll] at hu
    cases hma : mergeAgainst d k0 cv0 with
    | none => rw [hma] at hu; simp at hu
    | some w0 =>
      rw [hma] at hu
      cases hrec : updAll d rest with
      | none => rw [hrec] at hu; simp at hu
      | some urest =>
        rw [hrec] at hu
        have hu2 : JObj.cons k0 w0 urest = u := by simpa using hu
        subst hu2
        have h0 : mergeAgainst r k0 cv0 = some w0 :=
          hyp k0 cv0 w0 (by simp [getVal]) hma
        have htail : updAll r rest = some urest := by
          refine ih urest hnd.2 hrec (fun k cv w hk hmk => hyp k cv w ?_ hmk)
          simp only [getVal]
          by_cases he : k0 = k
          · subst he; rw [hnd.1] at hk; exact Option.noConfusion hk
          · simp [if_neg he, hk]
        simp [updAll, h0, htail]

mutual

theorem mergeVal_idem (d : JValue) : ∀ c w, wfV d = true → wfV c = true →
    mergeVal d c = some w → mergeVal w c = some w := by
  intro c w hd hc h
  by_cases he : d = c
  · unfold mergeVal at h
    rw [if_pos he] at h
    have hw : c = w := by simpa using h
    subst hw
    exact mergeVal_refl _
  · cases d with
    | obj df =>
      cases c with
      | obj cf =>
        unfold mergeVal at h <;> rw [if_neg he] at h
        dsimp only [] at h
        cases hm : mergeFields df cf with
        | none => rw [hm] at h; simp at h
        | some rf =>
          rw [hm] at h
          have hw : JValue.obj rf = w := by simpa using h
          subst hw
          rw [mergeVal_obj_obj rf cf (nodupKeys_of_wfO cf hc),
            mergeFields_idem df cf rf hd hc hm]
          rfl
      | str s =>
        have hw : JValue.str s = w := by
          unfold mergeVal at h <;> rw [if_neg he] at h
          simpa using h
        subst hw; exact mergeVal_refl _
      | num n =>
        have hw : JValue.num n = w := by
          unfold mergeVal at h <;> rw [if_neg he] at h
          simpa using h
        subst hw; exact mergeVal_refl _
      | boolean b =>
        have hw : JValue.boolean b = w := by
          unfold mergeVal at h <;> rw [if_neg he] at h
          simpa using h
        subst hw; exact mergeVal_refl _
      | arr a =>
        have hw : JValue.arr a = w := by
          unfold mergeVal at h <;> rw [if_neg he] at h
          simpa using h
        subst hw; exact mergeVal_refl _
    | arr ds =>
      cases c with
      | arr cs =>
        unfold mergeVal at h <;> rw [if_neg he] at h
        dsimp only [] at h
        cases hm : mergeElems ds cs with
        | none => rw [hm] at h; simp at h
        | some ws =>
          rw [hm] at h
          have hw : JValue.arr ws = w := by simpa using h
          subst hw
          rw [mergeVal_arr_arr ws cs hc, mergeElems_idem ds cs ws hd hc hm]
          rfl
      | str s =>
        have hw : JValue.str s = w := by
          unfold mergeVal at h <;> rw [if_neg he] at h
          simpa using h
        subst hw; exact mergeVal_refl _
      | num n =>
        have hw : JValue.num n = w := by
          unfold mergeVal at h <;> rw [if_neg he] at h
          simpa using h
        subst hw; exact mergeVal_refl _
      | boolean b =>
        have hw : JValue.boolean b = w := by
          unfold mergeVal at h <;> rw [if_neg he] at h
          simpa using h
        subst hw; exact mergeVal_refl _
      | obj o =>
        have hw : JValue.obj o = w := by
          unfold mergeVal at h <;> rw [if_neg he] at h
          simpa using h
        subst hw; exact mergeVal_refl _
    | str s =>
      have hw : c = w := by
        unfold mergeVal at h <;> rw [if_neg he] at h
        cases c <;> simpa using h
      subst hw; exact mergeVal_refl _
    | num n =>
      have hw : c = w := by
        unfold mergeVal at h <;> rw [if_neg he] at h
        cases c <;> simpa using h
      subst hw; exact mergeVal_refl _
    | boolean b =>
      have hw : c = w := by
        unfold mergeVal at h <;> rw [if_neg he] at h
        cases c <;> simpa using h
      subst hw; exact mergeVal_refl _
termination_by sizeOf d

theorem mergeFields_idem (df : JObj) : ∀ cf r, wfO df = true → wfO cf = true →
    mergeFields df cf = some r → mergeFields r cf = some r := by
  intro cf r hdf hcf h
  have hndf := nodupKeys_of_wfO df hdf
  have hncf := nodupKeys_of_wfO cf hcf
  have hwr : wfO r = true := wfO_mergeFields df cf r hdf hcf h
  obtain ⟨u, hu, hr⟩ := mergeFields_split df cf r hndf hncf h
  rw [mergeFields_char r cf (nodupKeys_of_wfO r hwr) hncf]
  have hextra : extraOf r cf = extraOf df cf := by
    rw [hr, extraOf_appendO]
    rw [extraOf_subset_nil u cf (fun k hk => by
      rw [← isSome_getVal_updAll df cf u k hu]; exact hk)]
    rw [extraOf_of_disjoint (extraOf df cf) cf (fun k hk => by
      rw [getVal_extraOf df cf k hndf] at hk
      by_cases hc : (getVal cf k).isSome
      · rw [if_pos hc] at hk; simp at hk
      · simpa using hc)]
    rfl
  have hupd : updAll r cf = some u := by
    refine updAll_reapply r df cf u hncf hu (fun k cv w hcv hma => ?_)
    have huk : getVal u k = some w := by
      rw [getVal_updAll_some df cf u k cv hncf hu hcv, hma]
    have hrk : getVal r k = some w := by
      rw [hr, getVal_appendO, huk]
      rfl
    have hgoal : mergeAgainst r k cv = mergeVal w cv := by
      simp [mergeAgainst, hrk]
    rw [hgoal]
    unfold mergeAgainst at hma
    cases hgd : getVal df k with
    | none =>
      rw [hgd] at hma
      have hwc : cv = w := by simpa using hma
      subst hwc
      exact mergeVal_refl _
    | some dv =>
      rw [hgd] at hma
      exact mergeVal_idem dv cv w (wfV_getVal df k dv hdf hgd)
        (wfV_getVal cf k cv hcf hcv) hma
  rw [hupd, hextra]
  simp only [Option.map_some']
  exact congrArg some hr.symm
termination_by sizeOf df
decreasing_by exact sizeOf_getVal df k dv hgd

theorem mergeElems_idem (ds : JArr) : ∀ cs rs, wfA ds = true → wfA cs = true →
    mergeElems ds cs = some rs → mergeElems rs cs = some rs := by
  intro cs rs hd hc h
  match ds with
  | .nil =>
    unfold mergeElems at h
    have hrs : cs = rs := by simpa using h
    subst hrs
    exact mergeElems_self _ hc
  | .cons d drest =>
    match cs with
    | .nil =>
      unfold mergeElems at h
      have hrs : JArr.nil = rs := by simpa using h
      subst hrs
      rfl
    | .cons c crest =>
      simp only [wfA, Bool.and_eq_true] at hd hc
      unfold mergeElems at h
      cases hme : mergeElem d c with
      | none => rw [hme] at h; simp at h
      | some w0 =>
        rw [hme] at h
        dsimp only [] at h
        cases hrec : mergeElems drest crest with
        | none => rw [hrec] at h; simp at h
        | some wrest =>
          rw [hrec] at h
          have hrs : JArr.cons w0 wrest = rs := by simpa using h
          subst hrs
          unfold mergeElems
          rw [mergeElem_idem d c w0 hd.1 hc.1 hme,
            mergeElems_idem drest crest wrest hd.2 hc.2 hrec]
termination_by sizeOf ds

theorem mergeElem_idem (d : JValue) : ∀ c w, wfV d = true → wfV c = true →
    mergeElem d c = some w → mergeElem w c = some w := by
  intro c w hd hc h
  match d with
  | .obj .nil =>
    unfold mergeElem at h
    have hw : c = w := by simpa using h
    subst hw
    exact mergeElem_refl _ hc
  | .obj (.cons k0 v0 df0) =>
    unfold mergeElem at h
    cases c with
    | obj cf =>
      dsimp only [] at h
      cases hm : mergeFields (.cons k0 v0 df0) cf with
      | none => rw [hm] at h; simp at h
      | some rf =>
        rw [hm] at h
        have hw : JValue.obj rf = w := by simpa using h
        subst hw
        have hdo : wfO (JObj.cons k0 v0 df0) = true := hd
        have hco : wfO cf = true := hc
        have hk0 : (getVal rf k0).isSome = true := by
          rw [isSome_getVal_mergeFields (.cons k0 v0 df0) cf rf k0
            (nodupKeys_of_wfO _ hdo) (nodupKeys_of_wfO _ hco) hm]
          simp [getVal]
        cases hrf : rf with
        | nil => rw [hrf] at hk0; simp [getVal] at hk0
        | cons k1 v1 rf1 =>
          unfold mergeElem
          dsimp only []
          rw [← hrf, mergeFields_idem (.cons k0 v0 df0) cf rf hd hc hm]
          rfl
    | str s => simp at h
    | num n => simp at h
    | boolean b => simp at h
    | arr a => simp at h
  | .str s =>
    have hw : c = w := by simpa [mergeElem] using h
    subst hw
    exact mergeElem_refl _ hc
  | .num n =>
    have hw : c = w := by simpa [mergeElem] using h
    subst hw
    exact mergeElem_refl _ hc
  | .boolean b =>
    have hw : c = w := by simpa [mergeElem] using h
    subst hw
    exact mergeElem_refl _ hc
  | .arr a =>
    have hw : c = w := by simpa [mergeElem] using h
    subst hw
    exact mergeElem_refl _ hc
termination_by sizeOf d

end

/-! ### `mergeMetadata` and path lemmas -/

theorem getVal_mergeLAKey_other (key : String) (d c : JObj) (k2 : String)
    (h : k2 ≠ key) : getVal (mergeLAKey key d c) k2 = getVal c k2 := by
  unfold mergeLAKey
  cases hd : getVal d key with
  | none => rfl
  | some dv =>
    cases dv with
    | obj dm =>
      cases hc : getVal c key with
      | none => exact getVal_setVal_ne c key _ k2 (fun he => h he.symm)
      | some cv =>
        cases cv <;> exact getVal_setVal_ne c key _ k2 (fun he => h he.symm)
    | str s => rfl
    | num n => rfl
    | boolean b => rfl
    | arr a => rfl

theorem getVal_mergeMetadata_ne (d c : JObj) (k : String) (h : k ≠ "metadata") :
    getVal (mergeMetadata d c) k = getVal c k := by
  unfold mergeMetadata
  cases hd : getVal d "metadata" with
  | none => rfl
  | some dv =>
    cases dv with
    | obj dMeta =>
      cases hc : getVal c "metadata" with
      | none => exact getVal_setVal_ne c "metadata" _ k (fun he => h he.symm)
      | some cv =>
        cases cv <;> exact getVal_setVal_ne c "metadata" _ k (fun he => h he.symm)
    | str s => rfl
    | num n => rfl
    | boolean b => rfl
    | arr a => rfl

theorem mergeLAKey_self (key : String) (x : JObj) (hx : wfO x = true) :
    mergeLAKey key x x = x := by
  unfold mergeLAKey
  cases hd : getVal x key with
  | none => rfl
  | some dv =>
    cases dv with
    | obj dm =>
      dsimp only []
      have hnd : nodupKeys dm = true := by
        have := wfV_getVal x key (.obj dm) hx hd
        exact nodupKeys_of_wfO dm this
      rw [putAll_self dm hnd, setVal_of_getVal x key (.obj dm) hd]
    | str s => rfl
    | num n => rfl
    | boolean b => rfl
    | arr a => rfl

theorem mergeMetadata_self (x : JObj) (hx : wfO x = true) : mergeMetadata x x = x := by
  unfold mergeMetadata
  cases hd : getVal x "metadata" with
  | none => rfl
  | some dv =>
    cases dv with
    | obj dMeta =>
      dsimp only []
      have hwm : wfO dMeta = true := wfV_getVal x "metadata" (.obj dMeta) hx hd
      rw [mergeLAKey_self "labels" dMeta hwm]
      rw [mergeLAKey_self "annotations" dMeta hwm]
      rw [setVal_of_getVal x "metadata" (.obj dMeta) hd]
    | str s => rfl
    | num n => rfl
    | boolean b => rfl
    | arr a => rfl

theorem getPathO_single (o : JObj) (k : String) : getPathO o [k] = getVal o k := by
  unfold getPathO
  dsimp only []
  cases h : getVal o k with
  | none => rfl
  | some v =>
    unfold getPathV
    cases v <;> rfl

theorem getPathV_obj (o : JObj) (p : List String) : getPathV (.obj o) p = getPathO o p := by
  cases p with
  | nil => rfl
  | cons k p2 =>
    unfold getPathV getPathO
    dsimp only []

theorem mergeVal_scalar_left (d c : JValue) (hs : isScalar d = true) (hne : d ≠ c) :
    mergeVal d c = some c := by
  unfold mergeVal
  rw [if_neg hne]
  cases d <;> simp [isScalar] at hs ⊢ <;> cases c <;> rfl

/-- Claim C3 (amended): for a non-metadata top-level key present in both
documents with different values, the merge result carries exactly
`mergeVal` of the two bindings: the template's value for scalar defaults,
the recursive `mergeFields` merge for mapping/mapping pairs, and the
positional `mergeElems` merge for sequence/sequence pairs. -/
theorem mergeConflict_template_wins (l t m : JObj) (k : String) (dv cv : JValue)
    (hl : wfO l = true) (ht : wfO t = true) (hm : mergeBoth l t = some m)
    (hk : k ≠ "metadata") (hdv : getVal l k = some dv) (hcv : getVal t k = some cv)
    (hne : dv ≠ cv) :
    getVal m k = mergeVal dv cv ∧
    (isScalar dv = true → getVal m k = some cv) ∧
    (∀ df cf, dv = .obj df → cv = .obj cf →
      getVal m k = (mergeFields df cf).map .obj) ∧
    (∀ ds cs, dv = .arr ds → cv = .arr cs →
      getVal m k = (mergeElems ds cs).map .arr) := by
  unfold mergeBoth at hm
  cases hp : mergeFields l t with
  | none => rw [hp] at hm; simp at hm
  | some p =>
    rw [hp] at hm
    have hmp : mergeMetadata l p = m := by simpa using hm
    obtain ⟨w, hw, hpk⟩ := mergeFields_getVal_both l t p k dv cv
      (nodupKeys_of_wfO l hl) (nodupKeys_of_wfO t ht) hp hdv hcv
    have hmk : getVal m k = some w := by
      rw [← hmp, getVal_mergeMetadata_ne l p k hk]
      exact hpk
    have hmain : getVal m k = mergeVal dv cv := by rw [hmk, hw]
    refine ⟨hmain, ?_, ?_, ?_⟩
    · intro hs
      rw [hmain, mergeVal_scalar_left dv cv hs hne]
    · intro df cf hdf hcf
      subst hdf; subst hcf
      rw [hmain, mergeVal_obj_obj df cf]
      exact nodupKeys_of_wfO cf (wfV_getVal t k (.obj cf) ht hcv)
    · intro ds cs hds hcs
      subst hds; subst hcs
      rw [hmain, mergeVal_arr_arr ds cs]
      exact wfV_getVal t k (.arr cs) ht hcv

/-- Witness for `mergeConflict_template_wins` at the specification's concrete
scenario `Merge({"spec":{"a":"1","b":"2"}}, {"spec":{"a":"9","c":"3"}})`. -/
theorem mergeConflict_template_wins_witness :
    (wfO specAB = true ∧ wfO specAC = true ∧
      mergeBoth specAB specAC = some specMergedAC ∧
      getVal specAB "spec" = some (.obj (.cons "a" (.str "1") (.cons "b" (.str "2") .nil))) ∧
      getVal specAC "spec" = some (.obj (.cons "a" (.str "9") (.cons "c" (.str "3") .nil)))) ∧
    getVal specMergedAC "spec" =
      mergeVal (.obj (.cons "a" (.str "1") (.cons "b" (.str "2") .nil)))
        (.obj (.cons "a" (.str "9") (.cons "c" (.str "3") .nil))) :=
  ⟨⟨by decide, by decide, by decide, by decide, by decide⟩,
    (mergeConflict_template_wins specAB specAC specMergedAC "spec"
      (.obj (.cons "a" (.str "1") (.cons "b" (.str "2") .nil)))
      (.obj (.cons "a" (.str "9") (.cons "c" (.str "3") .nil)))
      (by decide) (by decide) (by decide) (by decide) (by decide) (by decide)
      (by decide)).1⟩

/-- Claim C6 (amended): `MergeCR` surfaces no error for undecodable input:
one malformed side falls back to the decodable side's content (for the
malformed-template side after restoring the live side's own metadata), and
two malformed or empty-plus-malformed inputs produce the empty document. -/
theorem mergeCR_malformed_fallback (o : JObj) (h : wfO o = true) :
    MergeCR .malformed (.wellFormed o) = some o ∧
    MergeCR (.wellFormed o) .malformed = some o ∧
    MergeCR .malformed .malformed = some JObj.nil ∧
    MergeCR .malformed .empty = some JObj.nil ∧
    MergeCR .empty .malformed = some JObj.nil := by
  refine ⟨rfl, ?_, rfl, rfl, rfl⟩
  show mergeBoth o .nil = some o
  unfold mergeBoth
  rw [mergeFields_char o .nil (nodupKeys_of_wfO o h) rfl]
  rw [extraOf_nil_right o]
  show some (mergeMetadata o (appendO .nil o)) = some o
  show some (mergeMetadata o o) = some o
  rw [mergeMetadata_self o h]

/-- Witness for `mergeCR_malformed_fallback`. -/
theorem mergeCR_malformed_fallback_witness :
    wfO specAB = true ∧ MergeCR (.wellFormed specAB) .malformed = some specAB :=
  ⟨by decide, (mergeCR_malformed_fallback specAB (by decide)).2.1⟩

/-- Claim C2 (amended): when both documents carry metadata with labels and
annotations maps, the merge result's labels and annotations are each the
key-union of the two sides' maps, with the LIVE document's value taken at
every key held by both. -/
theorem mergeMetadata_union (l t m lMeta tMeta lL tL lA tA : JObj)
    (hl : wfO l = true) (ht : wfO t = true) (hm : mergeBoth l t = some m)
    (hlm : getVal l "metadata" = some (.obj lMeta))
    (htm : getVal t "metadata" = some (.obj tMeta))
    (hlL : getVal lMeta "labels" = some (.obj lL))
    (htL : getVal tMeta "labels" = some (.obj tL))
    (hlA : getVal lMeta "annotations" = some (.obj lA))
    (htA : getVal tMeta "annotations" = some (.obj tA)) :
    ∃ mMeta mL mA : JObj,
      getVal m "metadata" = some (.obj mMeta) ∧
      getVal mMeta "labels" = some (.obj mL) ∧
      getVal mMeta "annotations" = some (.obj mA) ∧
      (∀ k2, getVal mL k2 = (getVal lL k2).or (getVal tL k2)) ∧
      (∀ k2, getVal mA k2 = (getVal lA k2).or (getVal tA k2)) := by
  have hwlM : wfO lMeta = true := wfV_getVal l "metadata" (.obj lMeta) hl hlm
  have hwtM : wfO tMeta = true := wfV_getVal t "metadata" (.obj tMeta) ht htm
  have hwlL : wfO lL = true := wfV_getVal lMeta "labels" (.obj lL) hwlM hlL
  have hwtL : wfO tL = true := wfV_getVal tMeta "labels" (.obj tL) hwtM htL
  have hwlA : wfO lA = true := wfV_getVal lMeta "annotations" (.obj lA) hwlM hlA
  have hwtA : wfO tA = true := wfV_getVal tMeta "annotations" (.obj tA) hwtM htA
  unfold mergeBoth at hm
  cases hp : mergeFields l t with
  | none => rw [hp] at hm; simp at hm
  | some p =>
    rw [hp] at hm
    have hmp : mergeMetadata l p = m := by simpa using hm
    obtain ⟨w, hw, hpMeta⟩ := mergeFields_getVal_both l t p "metadata"
      (.obj lMeta) (.obj tMeta) (nodupKeys_of_wfO l hl) (nodupKeys_of_wfO t ht)
      hp hlm htm
    rw [mergeVal_obj_obj lMeta tMeta (nodupKeys_of_wfO tMeta hwtM)] at hw
    cases hpm : mergeFields lMeta tMeta with
    | none => rw [hpm] at hw; simp at hw
    | some pMeta =>
      rw [hpm] at hw
      have hwEq : JValue.obj pMeta = w := by simpa using hw
      subst hwEq
      obtain ⟨wL, hwL, hpL⟩ := mergeFields_getVal_both lMeta tMeta pMeta "labels"
        (.obj lL) (.obj tL) (nodupKeys_of_wfO lMeta hwlM) (nodupKeys_of_wfO tMeta hwtM)
        hpm hlL htL
      rw [mergeVal_obj_obj lL tL (nodupKeys_of_wfO tL hwtL)] at hwL
      cases hL1 : mergeFields lL tL with
      | none => rw [hL1] at hwL; simp at hwL
      | some L1 =>
        rw [hL1] at hwL
        have hwLEq : JValue.obj L1 = wL := by simpa using hwL
        subst hwLEq
        obtain ⟨wA, hwA, hpA⟩ := mergeFields_getVal_both lMeta tMeta pMeta "annotations"
          (.obj lA) (.obj tA) (nodupKeys_of_wfO lMeta hwlM) (nodupKeys_of_wfO tMeta hwtM)
          hpm hlA htA
        rw [mergeVal_obj_obj lA tA (nodupKeys_of_wfO tA hwtA)] at hwA
        cases hA1 : mergeFields lA tA with
        | none => rw [hA1] at hwA; simp at hwA
        | some A1 =>
          rw [hA1] at hwA
          have hwAEq : JValue.obj A1 = wA := by simpa using hwA
          subst hwAEq
          have hCM1 : mergeLAKey "labels" lMeta pMeta =
              setVal pMeta "labels" (.obj (putAll L1 lL)) := by
            unfold mergeLAKey
            rw [hlL, hpL]
          have hMf : mergeLAKey "annotations" lMeta (mergeLAKey "labels" lMeta pMeta) =
              setVal (setVal pMeta "labels" (.obj (putAll L1 lL))) "annotations"
                (.obj (putAll A1 lA)) := by
            rw [hCM1]
            unfold mergeLAKey
            rw [hlA]
            dsimp only []
            rw [getVal_setVal_ne pMeta "labels" _ "annotations" (by decide), hpA]
          have hmEq : m = setVal p "metadata"
              (.obj (setVal (setVal pMeta "labels" (.obj (putAll L1 lL))) "annotations"
                (.obj (putAll A1 lA)))) := by
            rw [← hmp]
            unfold mergeMetadata
            rw [hlm]
            dsimp only []
            rw [hpMeta]
            dsimp only []
            rw [hMf]
          refine ⟨setVal (setVal pMeta "labels" (.obj (putAll L1 lL))) "annotations"
            (.obj (putAll A1 lA)), putAll L1 lL, putAll A1 lA, ?_, ?_, ?_, ?_, ?_⟩
          · rw [hmEq, getVal_setVal_self]
          · rw [getVal_setVal_ne _ "annotations" _ "labels" (by decide),
              getVal_setVal_self]
          · rw [getVal_setVal_self]
          · intro k2
            cases hx : getVal lL k2 with
            | some v =>
              rw [getVal_putAll_mem lL L1 k2 v (nodupKeys_of_wfO lL hwlL) hx]
              rfl
            | none =>
              rw [getVal_putAll_not_mem lL L1 k2 hx,
                mergeFields_getVal_df_absent lL tL L1 k2 (nodupKeys_of_wfO lL hwlL)
                  (nodupKeys_of_wfO tL hwtL) hL1 hx]
              rfl
          · intro k2
            cases hx : getVal lA k2 with
            | some v =>
              rw [getVal_putAll_mem lA A1 k2 v (nodupKeys_of_wfO lA hwlA) hx]
              rfl
            | none =>
              rw [getVal_putAll_not_mem lA A1 k2 hx,
                mergeFields_getVal_df_absent lA tA A1 k2 (nodupKeys_of_wfO lA hwlA)
                  (nodupKeys_of_wfO tA hwtA) hA1 hx]
              rfl

/-- Witness for `mergeMetadata_union` at concrete documents whose labels
collide at `a` and whose annotation maps are disjoint. -/
theorem mergeMetadata_union_witness :
    (wfO wLive = true ∧ wfO wTpl = true ∧ mergeBoth wLive wTpl = some wMerged) ∧
    (∃ mMeta mL mA : JObj,
      getVal wMerged "metadata" = some (.obj mMeta) ∧
      getVal mMeta "labels" = some (.obj mL) ∧
      getVal mMeta "annotations" = some (.obj mA) ∧
      (∀ k2, getVal mL k2 =
        (getVal (.cons "a" (.str "live") .nil) k2).or
          (getVal (.cons "a" (.str "tpl") (.cons "b" (.str "t2") .nil)) k2)) ∧
      (∀ k2, getVal mA k2 =
        (getVal (.cons "p" (.str "lv") .nil) k2).or
          (getVal (.cons "q" (.str "tv") .nil) k2))) :=
  ⟨⟨by decide, by decide, by decide⟩,
    mergeMetadata_union wLive wTpl wMerged
      (.cons "labels" (.obj (.cons "a" (.str "live") .nil))
        (.cons "annotations" (.obj (.cons "p" (.str "lv") .nil)) .nil))
      (.cons "labels" (.obj (.cons "a" (.str "tpl") (.cons "b" (.str "t2") .nil)))
        (.cons "annotations" (.obj (.cons "q" (.str "tv") .nil)) .nil))
      (.cons "a" (.str "live") .nil)
      (.cons "a" (.str "tpl") (.cons "b" (.str "t2") .nil))
      (.cons "p" (.str "lv") .nil)
      (.cons "q" (.str "tv") .nil)
      (by decide) (by decide) (by decide) (by decide) (by decide)
      (by decide) (by decide) (by decide) (by decide)⟩

theorem getPathO_cons_some (o : JObj) (k0 : String) (rest : List String) (v0 : JValue)
    (h : getVal o k0 = some v0) : getPathO o (k0 :: rest) = getPathV v0 rest := by
  unfold getPathO
  dsimp only []
  rw [h]

theorem getPathO_cons_none (o : JObj) (k0 : String) (rest : List String)
    (h : getVal o k0 = none) : getPathO o (k0 :: rest) = none := by
  unfold getPathO
  dsimp only []
  rw [h]

theorem getPathV_nonobj_cons (v0 : JValue) (k0 : String) (rest : List String)
    (h : ∀ o : JObj, v0 ≠ .obj o) : getPathV v0 (k0 :: rest) = none := by
  cases v0 with
  | obj o => exact absurd rfl (h o)
  | str s => rfl
  | num n => rfl
  | boolean b => rfl
  | arr a => rfl

theorem getPathV_nonobj_ne_nil (v0 : JValue) (q : List String) (hq : q ≠ [])
    (h : ∀ o : JObj, v0 ≠ .obj o) : getPathV v0 q = none := by
  cases q with
  | nil => exact absurd rfl hq
  | cons a b => exact getPathV_nonobj_cons v0 a b h

/-- Keys present only in the default (live) side, reached through ancestors
at which the changed (template) side is a mapping or absent, survive the
field merge with their live value. -/
theorem mergeFields_preserve (p : List String) : ∀ (df cf r : JObj) (k : String) (v : JValue),
    wfO df = true → wfO cf = true → mergeFields df cf = some r →
    getPathO df (p ++ [k]) = some v → tplPathOk cf p = true →
    getPathO cf (p ++ [k]) = none → getPathO r (p ++ [k]) = some v := by
  induction p with
  | nil =>
    intro df cf r k v hdf hcf h hpath _ habs
    simp only [List.nil_append] at hpath habs ⊢
    rw [getPathO_single] at hpath habs ⊢
    exact mergeFields_getVal_live_only df cf r k v
      (nodupKeys_of_wfO df hdf) (nodupKeys_of_wfO cf hcf) h hpath habs
  | cons k0 p2 ih =>
    intro df cf r k v hdf hcf h hpath htok habs
    simp only [List.cons_append] at hpath habs ⊢
    cases hdk0 : getVal df k0 with
    | none => rw [getPathO_cons_none df k0 _ hdk0] at hpath; exact Option.noConfusion hpath
    | some v0 =>
      rw [getPathO_cons_some df k0 _ v0 hdk0] at hpath
      cases v0 with
      | obj df0 =>
        rw [getPathV_obj] at hpath
        unfold tplPathOk at htok
        cases hck0 : getVal cf k0 with
        | none =>
          have hrk0 : getVal r k0 = some (.obj df0) :=
            mergeFields_getVal_live_only df cf r k0 (.obj df0)
              (nodupKeys_of_wfO df hdf) (nodupKeys_of_wfO cf hcf) h hdk0 hck0
          rw [getPathO_cons_some r k0 _ (.obj df0) hrk0, getPathV_obj]
          exact hpath
        | some cv0 =>
          rw [hck0] at htok
          cases cv0 with
          | obj cf0 =>
            rw [getPathO_cons_some cf k0 _ (.obj cf0) hck0, getPathV_obj] at habs
            obtain ⟨w, hw, hrk0⟩ := mergeFields_getVal_both df cf r k0
              (.obj df0) (.obj cf0) (nodupKeys_of_wfO df hdf) (nodupKeys_of_wfO cf hcf)
              h hdk0 hck0
            have hwcf0 : wfO cf0 = true := wfV_getVal cf k0 (.obj cf0) hcf hck0
            rw [mergeVal_obj_obj df0 cf0 (nodupKeys_of_wfO cf0 hwcf0)] at hw
            cases hr0 : mergeFields df0 cf0 with
            | none => rw [hr0] at hw; simp at hw
            | some r0 =>
              rw [hr0] at hw
              have hwEq : JValue.obj r0 = w := by simpa using hw
              subst hwEq
              rw [getPathO_cons_some r k0 _ (.obj r0) hrk0, getPathV_obj]
              exact ih df0 cf0 r0 k v (wfV_getVal df k0 (.obj df0) hdf hdk0)
                hwcf0 hr0 hpath htok habs
          | str s => simp at htok
          | num n => simp at htok
          | boolean b => simp at htok
          | arr a => simp at htok
      | str s =>
        rw [getPathV_nonobj_ne_nil _ _ (by simp) (by intro o he; exact JValue.noConfusion he)] at hpath
        exact Option.noConfusion hpath
      | num n =>
        rw [getPathV_nonobj_ne_nil _ _ (by simp) (by intro o he; exact JValue.noConfusion he)] at hpath
        exact Option.noConfusion hpath
      | boolean b =>
        rw [getPathV_nonobj_ne_nil _ _ (by simp) (by intro o he; exact JValue.noConfusion he)] at hpath
        exact Option.noConfusion hpath
      | arr a =>
        rw [getPathV_nonobj_ne_nil _ _ (by simp) (by intro o he; exact JValue.noConfusion he)] at hpath
        exact Option.noConfusion hpath

theorem putAll_path_preserve (cL dL : JObj) (q : List String) (v : JValue)
    (hnd : nodupKeys dL = true) (hq : q ≠ []) (h : getPathO dL q = some v) :
    getPathO (putAll cL dL) q = some v := by
  cases q with
  | nil => exact absurd rfl hq
  | cons k2 rest =>
    cases hdk : getVal dL k2 with
    | none => rw [getPathO_cons_none dL k2 rest hdk] at h; exact Option.noConfusion h
    | some v2 =>
      rw [getPathO_cons_some dL k2 rest v2 hdk] at h
      rw [getPathO_cons_some (putAll cL dL) k2 rest v2
        (getVal_putAll_mem dL cL k2 v2 hnd hdk)]
      exact h

theorem mergeLAKey_getVal_key (key : String) (lMeta X lL cL : JObj)
    (hl : getVal lMeta key = some (.obj lL)) (hc : getVal X key = some (.obj cL)) :
    mergeLAKey key lMeta X = setVal X key (.obj (putAll cL lL)) := by
  unfold mergeLAKey
  rw [hl]
  dsimp only []
  rw [hc]

theorem mergeLAKey_id_of_not_obj (key : String) (lMeta X : JObj)
    (h : ∀ lL, getVal lMeta key ≠ some (.obj lL)) : mergeLAKey key lMeta X = X := by
  unfold mergeLAKey
  cases hl : getVal lMeta key with
  | none => rfl
  | some v =>
    cases v with
    | obj o => exact absurd hl (h o)
    | str s => rfl
    | num n => rfl
    | boolean b => rfl
    | arr a => rfl

theorem mergeMetadata_id_of_not_obj (l c : JObj)
    (h : ∀ lM, getVal l "metadata" ≠ some (.obj lM)) : mergeMetadata l c = c := by
  unfold mergeMetadata
  cases hl : getVal l "metadata" with
  | none => rfl
  | some v =>
    cases v with
    | obj o => exact absurd hl (h o)
    | str s => rfl
    | num n => rfl
    | boolean b => rfl
    | arr a => rfl

/-- Preservation of live-only paths through the metadata fix-up pass. -/
theorem metaLevel_preserve (lMeta tMeta pMeta : JObj) (p2 : List String) (k : String) (v : JValue)
    (hwl : wfO lMeta = true) (hwt : wfO tMeta = true)
    (hpm : mergeFields lMeta tMeta = some pMeta)
    (hpath : getPathO lMeta (p2 ++ [k]) = some v)
    (htok : tplPathOk tMeta p2 = true)
    (habs : getPathO tMeta (p2 ++ [k]) = none) :
    getPathO (mergeLAKey "annotations" lMeta (mergeLAKey "labels" lMeta pMeta))
      (p2 ++ [k]) = some v := by
  cases p2 with
  | nil =>
    simp only [List.nil_append] at hpath habs ⊢
    rw [getPathO_single] at hpath habs ⊢
    have hpG2 : getVal pMeta k = some v :=
      mergeFields_getVal_live_only lMeta tMeta pMeta k v
        (nodupKeys_of_wfO lMeta hwl) (nodupKeys_of_wfO tMeta hwt) hpm hpath habs
    by_cases hklab : k = "labels"
    · subst hklab
      cases v with
      | obj lL =>
        rw [mergeLAKey_getVal_key "labels" lMeta pMeta lL lL hpath hpG2]
        rw [putAll_self lL (nodupKeys_of_wfO lL (wfV_getVal lMeta "labels" (.obj lL) hwl hpath))]
        rw [getVal_mergeLAKey_other "annotations" lMeta _ "labels" (by decide)]
        exact getVal_setVal_self pMeta "labels" (.obj lL)
      | str s =>
        rw [mergeLAKey_id_of_not_obj "labels" lMeta pMeta (by rw [hpath]; simp)]
        rw [getVal_mergeLAKey_other "annotations" lMeta pMeta "labels" (by decide)]
        exact hpG2
      | num n =>
        rw [mergeLAKey_id_of_not_obj "labels" lMeta pMeta (by rw [hpath]; simp)]
        rw [getVal_mergeLAKey_other "annotations" lMeta pMeta "labels" (by decide)]
        exact hpG2
      | boolean b =>
        rw [mergeLAKey_id_of_not_obj "labels" lMeta pMeta (by rw [hpath]; simp)]
        rw [getVal_mergeLAKey_other "annotations" lMeta pMeta "labels" (by decide)]
        exact hpG2
      | arr a =>
        rw [mergeLAKey_id_of_not_obj "labels" lMeta pMeta (by rw [hpath]; simp)]
        rw [getVal_mergeLAKey_other "annotations" lMeta pMeta "labels" (by decide)]
        exact hpG2
    · by_cases hkann : k = "annotations"
      · subst hkann
        have hCM1 : getVal (mergeLAKey "labels" lMeta pMeta) "annotations" = some v := by
          rw [getVal_mergeLAKey_other "labels" lMeta pMeta "annotations" (by decide)]
          exact hpG2
        cases v with
        | obj lA =>
          rw [mergeLAKey_getVal_key "annotations" lMeta _ lA lA hpath hCM1]
          rw [putAll_self lA (nodupKeys_of_wfO lA (wfV_getVal lMeta "annotations" (.obj lA) hwl hpath))]
          exact getVal_setVal_self _ "annotations" (.obj lA)
        | str s =>
          rw [mergeLAKey_id_of_not_obj "annotations" lMeta _ (by rw [hpath]; simp)]
          exact hCM1
        | num n =>
          rw [mergeLAKey_id_of_not_obj "annotations" lMeta _ (by rw [hpath]; simp)]
          exact hCM1
        | boolean b =>
          rw [mergeLAKey_id_of_not_obj "annotations" lMeta _ (by rw [hpath]; simp)]
          exact hCM1
        | arr a =>
          rw [mergeLAKey_id_of_not_obj "annotations" lMeta _ (by rw [hpath]; simp)]
          exact hCM1
      · rw [getVal_mergeLAKey_other "annotations" lMeta _ k hkann,
          getVal_mergeLAKey_other "labels" lMeta pMeta k hklab]
        exact hpG2
  | cons k1 p3 =>
    simp only [List.cons_append] at hpath habs ⊢
    cases hlk1 : getVal lMeta k1 with
    | none => rw [getPathO_cons_none lMeta k1 _ hlk1] at hpath; exact Option.noConfusion hpath
    | some v1 =>
      rw [getPathO_cons_some lMeta k1 _ v1 hlk1] at hpath
      cases v1 with
      | str s =>
        rw [getPathV_nonobj_ne_nil _ _ (by simp) (by intro o he; exact JValue.noConfusion he)] at hpath
        exact Option.noConfusion hpath
      | num n =>
        rw [getPathV_nonobj_ne_nil _ _ (by simp) (by intro o he; exact JValue.noConfusion he)] at hpath
        exact Option.noConfusion hpath
      | boolean b =>
        rw [getPathV_nonobj_ne_nil _ _ (by simp) (by intro o he; exact JValue.noConfusion he)] at hpath
        exact Option.noConfusion hpath
      | arr a =>
        rw [getPathV_nonobj_ne_nil _ _ (by simp) (by intro o he; exact JValue.noConfusion he)] at hpath
        exact Option.noConfusion hpath
      | obj lSub =>
        rw [getPathV_obj] at hpath
        have hwlSub : wfO lSub = true := wfV_getVal lMeta k1 (.obj lSub) hwl hlk1
        unfold tplPathOk at htok
        by_cases hk1lab : k1 = "labels"
        · subst hk1lab
          have hpcL : ∃ cL, getVal pMeta "labels" = some (.obj cL) := by
            cases htk1 : getVal tMeta "labels" with
            | none =>
              exact ⟨lSub, mergeFields_getVal_live_only lMeta tMeta pMeta "labels" (.obj lSub)
                (nodupKeys_of_wfO lMeta hwl) (nodupKeys_of_wfO tMeta hwt) hpm hlk1 htk1⟩
            | some tv =>
              rw [htk1] at htok
              cases tv with
              | obj tSub =>
                obtain ⟨w, hw, hpv⟩ := mergeFields_getVal_both lMeta tMeta pMeta "labels"
                  (.obj lSub) (.obj tSub) (nodupKeys_of_wfO lMeta hwl)
                  (nodupKeys_of_wfO tMeta hwt) hpm hlk1 htk1
                rw [mergeVal_obj_obj lSub tSub
                  (nodupKeys_of_wfO tSub (wfV_getVal tMeta "labels" (.obj tSub) hwt htk1))] at hw
                cases hms : mergeFields lSub tSub with
                | none => rw [hms] at hw; simp at hw
                | some L1 =>
                  rw [hms] at hw
                  have : JValue.obj L1 = w := by simpa using hw
                  subst this
                  exact ⟨L1, hpv⟩
              | str s => simp at htok
              | num n => simp at htok
              | boolean b => simp at htok
              | arr a => simp at htok
          obtain ⟨cL, hpcL⟩ := hpcL
          rw [mergeLAKey_getVal_key "labels" lMeta pMeta lSub cL hlk1 hpcL]
          have hMfL : getVal (mergeLAKey "annotations" lMeta
              (setVal pMeta "labels" (.obj (putAll cL lSub)))) "labels" =
              some (.obj (putAll cL lSub)) := by
            rw [getVal_mergeLAKey_other "annotations" lMeta _ "labels" (by decide)]
            exact getVal_setVal_self pMeta "labels" _
          rw [getPathO_cons_some _ "labels" _ _ hMfL, getPathV_obj]
          exact putAll_path_preserve cL lSub (p3 ++ [k]) v
            (nodupKeys_of_wfO lSub hwlSub) (by simp) hpath
        · by_cases hk1ann : k1 = "annotations"
          · subst hk1ann
            have hpcA : ∃ cA, getVal pMeta "annotations" = some (.obj cA) := by
              cases htk1 : getVal tMeta "annotations" with
              | none =>
                exact ⟨lSub, mergeFields_getVal_live_only lMeta tMeta pMeta "annotations" (.obj lSub)
                  (nodupKeys_of_wfO lMeta hwl) (nodupKeys_of_wfO tMeta hwt) hpm hlk1 htk1⟩
              | some tv =>
                rw [htk1] at htok
                cases tv with
                | obj tSub =>
                  obtain ⟨w, hw, hpv⟩ := mergeFields_getVal_both lMeta tMeta pMeta "annotations"
                    (.obj lSub) (.obj tSub) (nodupKeys_of_wfO lMeta hwl)
                    (nodupKeys_of_wfO tMeta hwt) hpm hlk1 htk1
                  rw [mergeVal_obj_obj lSub tSub
                    (nodupKeys_of_wfO tSub (wfV_getVal tMeta "annotations" (.obj tSub) hwt htk1))] at hw
                  cases hms : mergeFields lSub tSub with
                  | none => rw [hms] at hw; simp at hw
                  | some A1 =>
                    rw [hms] at hw
                    have : JValue.obj A1 = w := by simpa using hw
                    subst this
                    exact ⟨A1, hpv⟩
                | str s => simp at htok
                | num n => simp at htok
                | boolean b => simp at htok
                | arr a => simp at htok
            obtain ⟨cA, hpcA⟩ := hpcA
            have hCM1A : getVal (mergeLAKey "labels" lMeta pMeta) "annotations" =
                some (.obj cA) := by
              rw [getVal_mergeLAKey_other "labels" lMeta pMeta "annotations" (by decide)]
              exact hpcA
            rw [mergeLAKey_getVal_key "annotations" lMeta _ lSub cA hlk1 hCM1A]
            have hMfA : getVal (setVal (mergeLAKey "labels" lMeta pMeta) "annotations"
                (.obj (putAll cA lSub))) "annotations" = some (.obj (putAll cA lSub)) :=
              getVal_setVal_self _ "annotations" _
            rw [getPathO_cons_some _ "annotations" _ _ hMfA, getPathV_obj]
            exact putAll_path_preserve cA lSub (p3 ++ [k]) v
              (nodupKeys_of_wfO lSub hwlSub) (by simp) hpath
          · have hMfk1 : getVal (mergeLAKey "annotations" lMeta
                (mergeLAKey "labels" lMeta pMeta)) k1 = getVal pMeta k1 := by
              rw [getVal_mergeLAKey_other "annotations" lMeta _ k1 hk1ann,
                getVal_mergeLAKey_other "labels" lMeta pMeta k1 hk1lab]
            cases htk1 : getVal tMeta k1 with
            | none =>
              have hpv : getVal pMeta k1 = some (.obj lSub) :=
                mergeFields_getVal_live_only lMeta tMeta pMeta k1 (.obj lSub)
                  (nodupKeys_of_wfO lMeta hwl) (nodupKeys_of_wfO tMeta hwt) hpm hlk1 htk1
              rw [getPathO_cons_some _ k1 _ _ (hMfk1.trans hpv), getPathV_obj]
              exact hpath
            | some tv =>
              rw [htk1] at htok
              cases tv with
              | obj tSub =>
                have hwtSub : wfO tSub = true := wfV_getVal tMeta k1 (.obj tSub) hwt htk1
                rw [getPathO_cons_some tMeta k1 _ (.obj tSub) htk1, getPathV_obj] at habs
                obtain ⟨w, hw, hpv⟩ := mergeFields_getVal_both lMeta tMeta pMeta k1
                  (.obj lSub) (.obj tSub) (nodupKeys_of_wfO lMeta hwl)
                  (nodupKeys_of_wfO tMeta hwt) hpm hlk1 htk1
                rw [mergeVal_obj_obj lSub tSub (nodupKeys_of_wfO tSub hwtSub)] at hw
                cases hms : mergeFields lSub tSub with
                | none => rw [hms] at hw; simp at hw
                | some rSub =>
                  rw [hms] at hw
                  have : JValue.obj rSub = w := by simpa using hw
                  subst this
                  rw [getPathO_cons_some _ k1 _ _ (hMfk1.trans hpv), getPathV_obj]
                  exact mergeFields_preserve p3 lSub tSub rSub k v hwlSub hwtSub hms
                    hpath htok habs
              | str s => simp at htok
              | num n => simp at htok
              | boolean b => simp at htok
              | arr a => simp at htok

/-- Claim C4 (amended): a key present in the live document and absent from
the template is preserved with its live value, provided that wherever the
template also binds an ancestor key on the path, it binds it to a mapping. -/
theorem mergePreserve_live_only (l t m : JObj) (p : List String) (k : String) (v : JValue)
    (hl : wfO l = true) (ht : wfO t = true) (hm : mergeBoth l t = some m)
    (hpath : getPathO l (p ++ [k]) = some v)
    (htok : tplPathOk t p = true)
    (habs : getPathO t (p ++ [k]) = none) :
    getPathO m (p ++ [k]) = some v := by
  unfold mergeBoth at hm
  cases hp1 : mergeFields l t with
  | none => rw [hp1] at hm; simp at hm
  | some p1 =>
    rw [hp1] at hm
    have hmp : mergeMetadata l p1 = m := by simpa using hm
    have h1 : getPathO p1 (p ++ [k]) = some v :=
      mergeFields_preserve p l t p1 k v hl ht hp1 hpath htok habs
    cases hlmv : getVal l "metadata" with
    | none =>
      rw [← hmp, mergeMetadata_id_of_not_obj l p1 (by rw [hlmv]; simp)]
      exact h1
    | some lv =>
      cases lv with
      | str s =>
        rw [← hmp, mergeMetadata_id_of_not_obj l p1 (by rw [hlmv]; simp)]
        exact h1
      | num n =>
        rw [← hmp, mergeMetadata_id_of_not_obj l p1 (by rw [hlmv]; simp)]
        exact h1
      | boolean b =>
        rw [← hmp, mergeMetadata_id_of_not_obj l p1 (by rw [hlmv]; simp)]
        exact h1
      | arr a =>
        rw [← hmp, mergeMetadata_id_of_not_obj l p1 (by rw [hlmv]; simp)]
        exact h1
      | obj lMeta =>
        have hwlMeta : wfO lMeta = true := wfV_getVal l "metadata" (.obj lMeta) hl hlmv
        cases p with
        | nil =>
          simp only [List.nil_append] at hpath habs h1 ⊢
          rw [getPathO_single] at hpath habs h1 ⊢
          by_cases hkm : k = "metadata"
          · subst hkm
            have hveq : v = .obj lMeta := by
              rw [hlmv] at hpath
              exact (Option.some.injEq _ _ ▸ hpath.symm :)
            subst hveq
            have hmeq : m = p1 := by
              rw [← hmp]
              unfold mergeMetadata
              rw [hlmv]
              dsimp only []
              rw [h1]
              dsimp only []
              rw [mergeLAKey_self "labels" lMeta hwlMeta,
                mergeLAKey_self "annotations" lMeta hwlMeta,
                setVal_of_getVal p1 "metadata" (.obj lMeta) h1]
            rw [hmeq]
            exact h1
          · rw [← hmp, getVal_mergeMetadata_ne l p1 k hkm]
            exact h1
        | cons k0 p2 =>
          simp only [List.cons_append] at hpath habs h1 ⊢
          by_cases hk0m : k0 = "metadata"
          · subst hk0m
            rw [getPathO_cons_some l "metadata" _ (.obj lMeta) hlmv, getPathV_obj] at hpath
            unfold tplPathOk at htok
            cases htmv : getVal t "metadata" with
            | none =>
              have hp1meta : getVal p1 "metadata" = some (.obj lMeta) :=
                mergeFields_getVal_live_only l t p1 "metadata" (.obj lMeta)
                  (nodupKeys_of_wfO l hl) (nodupKeys_of_wfO t ht) hp1 hlmv htmv
              have hmeq : m = p1 := by
                rw [← hmp]
                unfold mergeMetadata
                rw [hlmv]
                dsimp only []
                rw [hp1meta]
                dsimp only []
                rw [mergeLAKey_self "labels" lMeta hwlMeta,
                  mergeLAKey_self "annotations" lMeta hwlMeta,
                  setVal_of_getVal p1 "metadata" (.obj lMeta) hp1meta]
              rw [hmeq]
              exact h1
            | some tv =>
              rw [htmv] at htok
              cases tv with
              | obj tMeta =>
                have hwtMeta : wfO tMeta = true := wfV_getVal t "metadata" (.obj tMeta) ht htmv
                rw [getPathO_cons_some t "metadata" _ (.obj tMeta) htmv, getPathV_obj] at habs
                obtain ⟨w, hw, hp1meta⟩ := mergeFields_getVal_both l t p1 "metadata"
                  (.obj lMeta) (.obj tMeta) (nodupKeys_of_wfO l hl)
                  (nodupKeys_of_wfO t ht) hp1 hlmv htmv
                rw [mergeVal_obj_obj lMeta tMeta (nodupKeys_of_wfO tMeta hwtMeta)] at hw
                cases hpm : mergeFields lMeta tMeta with
                | none => rw [hpm] at hw; simp at hw
                | some pMeta =>
                  rw [hpm] at hw
                  have hwEq : JValue.obj pMeta = w := by simpa using hw
                  subst hwEq
                  have hmeq : m = setVal p1 "metadata"
                      (.obj (mergeLAKey "annotations" lMeta (mergeLAKey "labels" lMeta pMeta))) := by
                    rw [← hmp]
                    unfold mergeMetadata
                    rw [hlmv]
                    dsimp only []
                    rw [hp1meta]
                  have hmMeta : getVal m "metadata" = some
                      (.obj (mergeLAKey "annotations" lMeta (mergeLAKey "labels" lMeta pMeta))) := by
                    rw [hmeq]
                    exact getVal_setVal_self p1 "metadata" _
                  rw [getPathO_cons_some m "metadata" _ _ hmMeta, getPathV_obj]
                  exact metaLevel_preserve lMeta tMeta pMeta p2 k v hwlMeta hwtMeta
                    hpm hpath htok habs
              | str s => simp at htok
              | num n => simp at htok
              | boolean b => simp at htok
              | arr a => simp at htok
          · cases hp1k0 : getVal p1 k0 with
            | none =>
              rw [getPathO_cons_none p1 k0 _ hp1k0] at h1
              exact Option.noConfusion h1
            | some v0 =>
              rw [getPathO_cons_some p1 k0 _ v0 hp1k0] at h1
              have hmk0 : getVal m k0 = some v0 := by
                rw [← hmp, getVal_mergeMetadata_ne l p1 k0 hk0m]
                exact hp1k0
              rw [getPathO_cons_some m k0 _ v0 hmk0]
              exact h1

/-- Witness for `mergePreserve_live_only`: the live-only annotation key
`metadata.annotations.p` survives the merge of `wLive` and `wTpl`. -/
theorem mergePreserve_live_only_witness :
    (wfO wLive = true ∧ wfO wTpl = true ∧ mergeBoth wLive wTpl = some wMerged ∧
      getPathO wLive (["metadata", "annotations"] ++ ["p"]) = some (.str "lv") ∧
      tplPathOk wTpl ["metadata", "annotations"] = true ∧
      getPathO wTpl (["metadata", "annotations"] ++ ["p"]) = none) ∧
    getPathO wMerged (["metadata", "annotations"] ++ ["p"]) = some (.str "lv") :=
  ⟨⟨by decide, by decide, by decide, by decide, by decide, by decide⟩,
    mergePreserve_live_only wLive wTpl wMerged ["metadata", "annotations"] "p" (.str "lv")
      (by decide) (by decide) (by decide) (by decide) (by decide) (by decide)⟩

/-! ### Key sequences, extensionality, and success criteria -/

theorem mem_keysO_iff (o : JObj) (k : String) :
    k ∈ keysO o ↔ (getVal o k).isSome = true := by
  induction o using JObj_indOn with
  | hnil => simp [keysO, getVal]
  | hcons k0 v0 rest ih =>
    simp only [keysO, List.mem_cons, getVal]
    by_cases he : k0 = k
    · subst he; simp
    · have : ¬ (k = k0) := fun h2 => he h2.symm
      simp [this, he, ih]

theorem keysO_setVal_mem (o : JObj) (k : String) (v : JValue)
    (h : (getVal o k).isSome = true) : keysO (setVal o k v) = keysO o := by
  induction o using JObj_indOn with
  | hnil => simp [getVal] at h
  | hcons k0 v0 rest ih =>
    simp only [getVal] at h
    by_cases he : k0 = k
    · subst he; simp [setVal, keysO]
    · simp only [if_neg he] at h
      simp [setVal, he, keysO, ih h]

theorem keysO_appendO (a b : JObj) : keysO (appendO a b) = keysO a ++ keysO b := by
  induction a using JObj_indOn with
  | hnil => rfl
  | hcons k v rest ih => simp [appendO, keysO, ih]

theorem keysO_updAll (df cf u : JObj) (hu : updAll df cf = some u) :
    keysO u = keysO cf := by
  induction cf using JObj_indOn generalizing u with
  | hnil =>
    have : JObj.nil = u := by simpa [updAll] using hu
    subst this; rfl
  | hcons k0 cv0 rest ih =>
    simp only [updAll] at hu
    cases hma : mergeAgainst df k0 cv0 with
    | none => rw [hma] at hu; simp at hu
    | some w =>
      rw [hma] at hu
      cases hrec : updAll df rest with
      | none => rw [hrec] at hu; simp at hu
      | some urest =>
        rw [hrec] at hu
        have : JObj.cons k0 w urest = u := by simpa using hu
        subst this
        simp [keysO, ih urest hrec]

theorem keysO_extraOf (df cf : JObj) :
    keysO (extraOf df cf) = (keysO df).filter (fun k => (getVal cf k).isNone) := by
  induction df using JObj_indOn with
  | hnil => rfl
  | hcons k0 v0 rest ih =>
    simp only [extraOf, keysO, List.filter_cons]
    cases hg : getVal cf k0 with
    | none => simp [hg, keysO, ih]
    | some w => simp [hg, ih]

theorem keysO_putAll (c d : JObj)
    (h : ∀ k, (getVal d k).isSome = true → (getVal c k).isSome = true) :
    keysO (putAll c d) = keysO c := by
  induction d using JObj_indOn generalizing c with
  | hnil => rfl
  | hcons k0 v0 rest ih =>
    simp only [putAll]
    have hks : (getVal c k0).isSome = true := h k0 (by simp [getVal])
    rw [ih (setVal c k0 v0) (fun k hk => by
      rw [isSome_getVal_setVal c k0 v0 hks k]
      refine h k ?_
      simp only [getVal]
      by_cases he : k0 = k <;> simp [he, hk])]
    exact keysO_setVal_mem c k0 v0 hks

theorem nodupKeys_congr (a b : JObj) (h : keysO a = keysO b)
    (ha : nodupKeys a = true) : nodupKeys b = true := by
  induction a using JObj_indOn generalizing b with
  | hnil =>
    cases b with
    | nil => rfl
    | cons k v rest => simp [keysO] at h
  | hcons k0 v0 rest ih =>
    cases b with
    | nil => simp [keysO] at h
    | cons k1 v1 rest1 =>
      simp only [keysO, List.cons.injEq] at h
      obtain ⟨hk, hks⟩ := h
      subst hk
      rw [nodupKeys_cons_iff] at ha ⊢
      obtain ⟨hg, hnd⟩ := ha
      refine ⟨?_, ih rest1 hks hnd⟩
      have h1 : ¬ k0 ∈ keysO rest := by
        rw [mem_keysO_iff, hg]
        simp
      rw [hks, mem_keysO_iff] at h1
      cases hgg : getVal rest1 k0 with
      | none => rfl
      | some w => rw [hgg] at h1; simp at h1

/-- Objects with the same key sequence, no duplicate keys, and the same
lookup results are equal. -/
theorem objEq_ext (a : JObj) : ∀ b : JObj, keysO a = keysO b →
    nodupKeys a = true → nodupKeys b = true →
    (∀ k, getVal a k = getVal b k) → a = b := by
  induction a using JObj_indOn with
  | hnil =>
    intro b hk _ _ _
    cases b with
    | nil => rfl
    | cons k1 v1 rest1 => simp [keysO] at hk
  | hcons k0 v0 rest ih =>
    intro b hk hna hnb hv
    cases b with
    | nil => simp [keysO] at hk
    | cons k1 v1 rest1 =>
      simp only [keysO, List.cons.injEq] at hk
      obtain ⟨hke, hkr⟩ := hk
      subst hke
      rw [nodupKeys_cons_iff] at hna hnb
      have hv0 : v0 = v1 := by
        have := hv k0
        simpa [getVal] using this
      subst hv0
      have htails : rest = rest1 := by
        refine ih rest1 hkr hna.2 hnb.2 (fun k => ?_)
        by_cases he : k = k0
        · subst he
          rw [hna.1, hnb.1]
        · have h1 := hv k
          have hne : ¬ (k0 = k) := fun h2 => he h2.symm
          simpa [getVal, hne] using h1
      rw [htails]

theorem filter_keysO_self_nil (cf : JObj) :
    (keysO cf).filter (fun k => (getVal cf k).isNone) = [] := by
  rw [List.filter_eq_nil_iff]
  intro k hk
  rw [mem_keysO_iff] at hk
  cases h : getVal cf k with
  | none => rw [h] at hk; simp at hk
  | some w => simp

theorem filter_isNone_idem (l : List String) (cf : JObj)
    (h : ∀ k ∈ l, (getVal cf k).isNone = true) :
    l.filter (fun k => (getVal cf k).isNone) = l := by
  rw [List.filter_eq_self]
  intro a ha
  simp [h a ha]

/-- Key sequence of a merge result: the changed side's keys, then the
default-only keys in default order. -/
theorem keysO_mergeFields (df cf r : JObj)
    (hdf : nodupKeys df = true) (hcf : nodupKeys cf = true)
    (h : mergeFields df cf = some r) :
    keysO r = keysO cf ++ (keysO df).filter (fun k => (getVal cf k).isNone) := by
  obtain ⟨u, hu, hr⟩ := mergeFields_split df cf r hdf hcf h
  subst hr
  rw [keysO_appendO, keysO_updAll df cf u hu, keysO_extraOf]

theorem nodupKeys_mergeFields (df cf r : JObj)
    (hdf : wfO df = true) (hcf : wfO cf = true)
    (h : mergeFields df cf = some r) : nodupKeys r = true :=
  nodupKeys_of_wfO r (wfO_mergeFields df cf r hdf hcf h)

/-- Writing all of `d`'s bindings into an object with the same key sequence
reproduces `d`. -/
theorem putAll_restore (c d : JObj) (hnc : nodupKeys c = true)
    (hnd : nodupKeys d = true) (hk : keysO c = keysO d) : putAll c d = d := by
  have hsub : ∀ k, (getVal d k).isSome = true → (getVal c k).isSome = true := by
    intro k hks
    rw [← mem_keysO_iff] at hks ⊢
    rw [hk]; exact hks
  have hkeys : keysO (putAll c d) = keysO d := by
    rw [keysO_putAll c d hsub, hk]
  refine objEq_ext (putAll c d) d hkeys (nodupKeys_congr c (putAll c d) (keysO_putAll c d hsub).symm hnc) hnd (fun k => ?_)
  cases hg : getVal d k with
  | some v => exact getVal_putAll_mem d c k v hnd hg
  | none =>
    rw [getVal_putAll_not_mem d c k hg]
    have : ¬ k ∈ keysO c := by
      rw [hk, mem_keysO_iff, hg]; simp
    rw [mem_keysO_iff] at this
    cases hgc : getVal c k with
    | none => rfl
    | some w => rw [hgc] at this; simp at this

/-- If every binding of the changed side merges successfully against the
default side, the in-place pass succeeds. -/
theorem updAll_succeeds (df cf : JObj) (hnd : nodupKeys cf = true)
    (h : ∀ k cv, getVal cf k = some cv → (mergeAgainst df k cv).isSome = true) :
    (updAll df cf).isSome = true := by
  induction cf using JObj_indOn with
  | hnil => simp [updAll]
  | hcons k0 cv0 rest ih =>
    rw [nodupKeys_cons_iff] at hnd
    have h0 : (mergeAgainst df k0 cv0).isSome = true :=
      h k0 cv0 (by simp [getVal])
    have hr : (updAll df rest).isSome = true := by
      refine ih hnd.2 (fun k cv hk => ?_)
      have hne : ¬ (k0 = k) := by
        intro he; subst he
        rw [hnd.1] at hk
        simp at hk
      exact h k cv (by simp [getVal, hne, hk])
    cases hma : mergeAgainst df k0 cv0 with
    | none => rw [hma] at h0; simp at h0
    | some w =>
      cases hru : updAll df rest with
      | none => rw [hru] at hr; simp at hr
      | some u => simp [updAll, hma, hru]

/-- If every key collision between the two sides merges successfully,
the whole field merge succeeds. -/
theorem mergeFields_succeeds (df cf : JObj)
    (hdf : nodupKeys df = true) (hcf : nodupKeys cf = true)
    (h : ∀ k dv cv, getVal df k = some dv → getVal cf k = some cv →
      (mergeVal dv cv).isSome = true) :
    (mergeFields df cf).isSome = true := by
  rw [mergeFields_char df cf hdf hcf]
  have hu : (updAll df cf).isSome = true := by
    refine updAll_succeeds df cf hcf (fun k cv hk => ?_)
    unfold mergeAgainst
    cases hd : getVal df k with
    | none => simp
    | some dv => exact h k dv cv hd hk
  cases hux : updAll df cf with
  | none => rw [hux] at hu; simp at hu
  | some u => simp [hux]

/-- A mapping on the default side merged with a non-mapping changed value
yields the changed value. -/
theorem mergeVal_obj_not_obj (df : JObj) (c : JValue)
    (h : ∀ o, c ≠ .obj o) : mergeVal (.obj df) c = some c := by
  have hne : (JValue.obj df) ≠ c := by
    intro he
    exact h df he.symm
  unfold mergeVal
  rw [if_neg hne]
  cases c with
  | obj o => exact absurd rfl (h o)
  | str s => rfl
  | num n => rfl
  | boolean b => rfl
  | arr a => rfl

/-- When the default metadata holds a mapping under `key` and the changed
metadata does not, the default mapping is installed wholesale. -/
theorem mergeLAKey_install (key : String) (d c dm : JObj)
    (hd : getVal d key = some (.obj dm))
    (hc : ∀ cm, getVal c key ≠ some (.obj cm)) :
    mergeLAKey key d c = setVal c key (.obj dm) := by
  unfold mergeLAKey
  rw [hd]
  dsimp only []
  cases hcv : getVal c key with
  | none => rfl
  | some cv =>
    cases cv with
    | obj o => exact absurd hcv (hc o)
    | str s => rfl
    | num n => rfl
    | boolean b => rfl
    | arr a => rfl

/-- How one labels/annotations fix-up acts on the output of a field merge:
either it is the identity, or the default side holds a mapping there and it
overwrites the merged mapping with the default entries, or the template side
holds a non-mapping there and the default mapping is reinstalled wholesale. -/
theorem mergeLAKey_char (key : String) (lMeta tMeta pMeta X : JObj)
    (hwl : wfO lMeta = true) (hwt : wfO tMeta = true)
    (hpm : mergeFields lMeta tMeta = some pMeta)
    (hX : getVal X key = getVal pMeta key) :
    mergeLAKey key lMeta X = X ∨
    (∃ lL tL L1, getVal lMeta key = some (.obj lL) ∧ getVal tMeta key = some (.obj tL) ∧
      mergeFields lL tL = some L1 ∧ getVal pMeta key = some (.obj L1) ∧
      mergeLAKey key lMeta X = setVal X key (.obj (putAll L1 lL))) ∨
    (∃ lL tv, getVal lMeta key = some (.obj lL) ∧ getVal tMeta key = some tv ∧
      (∀ o, tv ≠ .obj o) ∧ getVal pMeta key = some tv ∧
      mergeLAKey key lMeta X = setVal X key (.obj lL)) := by
  have hnl := nodupKeys_of_wfO lMeta hwl
  have hnt := nodupKeys_of_wfO tMeta hwt
  cases hl : getVal lMeta key with
  | none =>
    left
    refine mergeLAKey_id_of_not_obj key lMeta X (fun lL h => ?_)
    rw [hl] at h
    exact Option.noConfusion h
  | some dv =>
    cases dv with
    | obj lL =>
      cases ht : getVal tMeta key with
      | none =>
        left
        have hpk : getVal pMeta key = some (.obj lL) :=
          mergeFields_getVal_live_only lMeta tMeta pMeta key (.obj lL) hnl hnt hpm hl ht
        have hpkX : getVal X key = some (.obj lL) := by rw [hX]; exact hpk
        rw [mergeLAKey_getVal_key key lMeta X lL lL hl hpkX]
        have hndl : nodupKeys lL = true :=
          nodupKeys_of_wfO lL (wfV_getVal lMeta key (.obj lL) hwl hl)
        rw [putAll_self lL hndl]
        exact setVal_of_getVal X key (.obj lL) hpkX
      | some tv =>
        obtain ⟨w, hw, hpk⟩ :=
          mergeFields_getVal_both lMeta tMeta pMeta key (.obj lL) tv hnl hnt hpm hl ht
        cases tv with
        | obj tL =>
          right; left
          have hndt : nodupKeys tL = true :=
            nodupKeys_of_wfO tL (wfV_getVal tMeta key (.obj tL) hwt ht)
          rw [mergeVal_obj_obj lL tL hndt] at hw
          cases hL1 : mergeFields lL tL with
          | none => rw [hL1] at hw; simp at hw
          | some L1 =>
            rw [hL1] at hw
            have hwv : w = .obj L1 := by
              simpa using hw.symm
            subst hwv
            exact ⟨lL, tL, L1, rfl, rfl, hL1, hpk,
              mergeLAKey_getVal_key key lMeta X lL L1 hl (by rw [hX]; exact hpk)⟩
        | str s =>
          right; right
          have hwv : w = .str s := by
            have := mergeVal_obj_not_obj lL (.str s) (fun o h => JValue.noConfusion h)
            rw [this] at hw
            simpa using hw.symm
          subst hwv
          exact ⟨lL, .str s, rfl, rfl, fun o h => JValue.noConfusion h, hpk,
            mergeLAKey_install key lMeta X lL hl (fun cm h => by
              rw [hX, hpk] at h
              simp at h)⟩
        | num n =>
          right; right
          have hwv : w = .num n := by
            have := mergeVal_obj_not_obj lL (.num n) (fun o h => JValue.noConfusion h)
            rw [this] at hw
            simpa using hw.symm
          subst hwv
          exact ⟨lL, .num n, rfl, rfl, fun o h => JValue.noConfusion h, hpk,
            mergeLAKey_install key lMeta X lL hl (fun cm h => by
              rw [hX, hpk] at h
              simp at h)⟩
        | boolean b =>
          right; right
          have hwv : w = .boolean b := by
            have := mergeVal_obj_not_obj lL (.boolean b) (fun o h => JValue.noConfusion h)
            rw [this] at hw
            simpa using hw.symm
          subst hwv
          exact ⟨lL, .boolean b, rfl, rfl, fun o h => JValue.noConfusion h, hpk,
            mergeLAKey_install key lMeta X lL hl (fun cm h => by
              rw [hX, hpk] at h
              simp at h)⟩
        | arr a =>
          right; right
          have hwv : w = .arr a := by
            have := mergeVal_obj_not_obj lL (.arr a) (fun o h => JValue.noConfusion h)
            rw [this] at hw
            simpa using hw.symm
          subst hwv
          exact ⟨lL, .arr a, rfl, rfl, fun o h => JValue.noConfusion h, hpk,
            mergeLAKey_install key lMeta X lL hl (fun cm h => by
              rw [hX, hpk] at h
              simp at h)⟩
    | str s =>
      left
      exact mergeLAKey_id_of_not_obj key lMeta X (fun lL h => by
        rw [hl] at h
        exact JValue.noConfusion (Option.some.inj h))
    | num n =>
      left
      exact mergeLAKey_id_of_not_obj key lMeta X (fun lL h => by
        rw [hl] at h
        exact JValue.noConfusion (Option.some.inj h))
    | boolean b =>
      left
      exact mergeLAKey_id_of_not_obj key lMeta X (fun lL h => by
        rw [hl] at h
        exact JValue.noConfusion (Option.some.inj h))
    | arr a =>
      left
      exact mergeLAKey_id_of_not_obj key lMeta X (fun lL h => by
        rw [hl] at h
        exact JValue.noConfusion (Option.some.inj h))

/-- Re-merging a metadata mapping that was overwritten with the default
entries succeeds, and overwriting the re-merge result with those entries
again changes nothing. -/
theorem putAll_merge_fixpoint (lL tL L1 : JObj)
    (hwl : wfO lL = true) (hwt : wfO tL = true)
    (hL1 : mergeFields lL tL = some L1) :
    ∃ RL, mergeFields (putAll L1 lL) tL = some RL ∧
      putAll RL (putAll L1 lL) = putAll L1 lL := by
  have hnl := nodupKeys_of_wfO lL hwl
  have hnt := nodupKeys_of_wfO tL hwt
  have hwL1 : wfO L1 = true := wfO_mergeFields lL tL L1 hwl hwt hL1
  have hnL1 := nodupKeys_of_wfO L1 hwL1
  have hwM : wfO (putAll L1 lL) = true :=
    wfO_putAll lL L1 hnl hwL1 (fun k v h => wfV_getVal lL k v hwl h)
  have hnM := nodupKeys_of_wfO (putAll L1 lL) hwM
  have hsub : ∀ k, (getVal lL k).isSome = true → (getVal L1 k).isSome = true := by
    intro k hk
    rw [isSome_getVal_mergeFields lL tL L1 k hnl hnt hL1, hk, Bool.or_true]
  have hkM : keysO (putAll L1 lL) = keysO L1 := keysO_putAll L1 lL hsub
  have hsucc : (mergeFields (putAll L1 lL) tL).isSome = true := by
    refine mergeFields_succeeds (putAll L1 lL) tL hnM hnt (fun k dv cv hd hc => ?_)
    cases hlk : getVal lL k with
    | some lv =>
      rw [getVal_putAll_mem lL L1 k lv hnl hlk] at hd
      have hdv : dv = lv := by simpa using hd.symm
      subst hdv
      obtain ⟨w, hw, _⟩ :=
        mergeFields_getVal_both lL tL L1 k dv cv hnl hnt hL1 hlk hc
      rw [hw]
      rfl
    | none =>
      rw [getVal_putAll_not_mem lL L1 k hlk,
        mergeFields_getVal_df_absent lL tL L1 k hnl hnt hL1 hlk, hc] at hd
      have hdv : dv = cv := by simpa using hd.symm
      subst hdv
      rw [mergeVal_refl dv]
      rfl
  cases hRL : mergeFields (putAll L1 lL) tL with
  | none => rw [hRL] at hsucc; simp at hsucc
  | some RL =>
    refine ⟨RL, rfl, ?_⟩
    have hwRL : wfO RL = true := wfO_mergeFields (putAll L1 lL) tL RL hwM hwt hRL
    have hnRL := nodupKeys_of_wfO RL hwRL
    refine putAll_restore RL (putAll L1 lL) hnRL hnM ?_
    rw [keysO_mergeFields (putAll L1 lL) tL RL hnM hnt hRL, hkM,
      keysO_mergeFields lL tL L1 hnl hnt hL1, List.filter_append,
      filter_keysO_self_nil tL, List.nil_append,
      filter_isNone_idem ((keysO lL).filter (fun k => (getVal tL k).isNone)) tL
        (fun k hk => (List.mem_filter.mp hk).2)]

theorem wfO_mergeLAKey (key : String) (d c : JObj)
    (hd : wfO d = true) (hc : wfO c = true) : wfO (mergeLAKey key d c) = true := by
  unfold mergeLAKey
  cases hg : getVal d key with
  | none => exact hc
  | some dv =>
    cases dv with
    | obj dm =>
      dsimp only []
      have hwdm : wfO dm = true := wfV_getVal d key (.obj dm) hd hg
      have hndm : nodupKeys dm = true := nodupKeys_of_wfO dm hwdm
      cases hcg : getVal c key with
      | none =>
        refine wfO_setVal c key (.obj dm) hc ?_
        show wfO dm = true
        exact hwdm
      | some cv =>
        cases cv with
        | obj cm =>
          refine wfO_setVal c key (.obj (putAll cm dm)) hc ?_
          show wfO (putAll cm dm) = true
          exact wfO_putAll dm cm hndm (wfV_getVal c key (.obj cm) hc hcg)
            (fun k v h => wfV_getVal dm k v hwdm h)
        | str s =>
          refine wfO_setVal c key (.obj dm) hc ?_
          show wfO dm = true
          exact hwdm
        | num n =>
          refine wfO_setVal c key (.obj dm) hc ?_
          show wfO dm = true
          exact hwdm
        | boolean b =>
          refine wfO_setVal c key (.obj dm) hc ?_
          show wfO dm = true
          exact hwdm
        | arr a =>
          refine wfO_setVal c key (.obj dm) hc ?_
          show wfO dm = true
          exact hwdm
    | str s => exact hc
    | num n => exact hc
    | boolean b => exact hc
    | arr a => exact hc

/-- Re-merging against the template leaves any key whose value survived from
the first merge output unchanged. -/
theorem mergeFields_second_point (lMeta tMeta pMeta Mf rMeta : JObj) (k : String)
    (hwl : wfO lMeta = true) (hwt : wfO tMeta = true)
    (hpm : mergeFields lMeta tMeta = some pMeta)
    (hnMf : nodupKeys Mf = true)
    (hrm : mergeFields Mf tMeta = some rMeta)
    (hk : getVal Mf k = getVal pMeta k) :
    getVal rMeta k = getVal Mf k := by
  have hnl := nodupKeys_of_wfO lMeta hwl
  have hnt := nodupKeys_of_wfO tMeta hwt
  cases hMk : getVal Mf k with
  | none =>
    have hpk : getVal pMeta k = none := by rw [← hk, hMk]
    have hts : (getVal tMeta k).isSome = false := by
      have := isSome_getVal_mergeFields lMeta tMeta pMeta k hnl hnt hpm
      rw [hpk] at this
      simp only [Option.isSome_none] at this
      cases htk : getVal tMeta k with
      | none => rfl
      | some v => rw [htk] at this; simp at this
    have := isSome_getVal_mergeFields Mf tMeta rMeta k hnMf hnt hrm
    rw [hMk, hts] at this
    simp only [Option.isSome_none, Bool.or_false] at this
    cases hrk : getVal rMeta k with
    | none => rfl
    | some v => rw [hrk] at this; simp at this
  | some mv =>
    cases htk : getVal tMeta k with
    | none => exact mergeFields_getVal_live_only Mf tMeta rMeta k mv hnMf hnt hrm hMk htk
    | some cv =>
      obtain ⟨w, hw, hr⟩ :=
        mergeFields_getVal_both Mf tMeta rMeta k mv cv hnMf hnt hrm hMk htk
      have hpmv : getVal pMeta k = some mv := by rw [← hk, hMk]
      have hwcv : wfV cv = true := wfV_getVal tMeta k cv hwt htk
      have hidem : mergeVal mv cv = some mv := by
        cases hlk : getVal lMeta k with
        | some lv =>
          obtain ⟨w0, hw0, hp0⟩ :=
            mergeFields_getVal_both lMeta tMeta pMeta k lv cv hnl hnt hpm hlk htk
          have hw0mv : w0 = mv := by
            rw [hp0] at hpmv
            simpa using hpmv
          subst hw0mv
          exact mergeVal_idem lv cv w0 (wfV_getVal lMeta k lv hwl hlk) hwcv hw0
        | none =>
          have : getVal pMeta k = getVal tMeta k :=
            mergeFields_getVal_df_absent lMeta tMeta pMeta k hnl hnt hpm hlk
          rw [hpmv, htk] at this
          have hmc : mv = cv := by simpa using this
          subst hmc
          exact mergeVal_refl mv
      rw [hidem] at hw
      have hwmv : w = mv := by simpa using hw.symm
      subst hwmv
      exact hr

/-- The second-pass metadata fix-up restores the first pass's metadata value
at `key`. -/
theorem mergeLAKey_second (key : String) (lMeta tMeta pMeta Mf rMeta Z : JObj)
    (hwl : wfO lMeta = true) (hwt : wfO tMeta = true)
    (hpm : mergeFields lMeta tMeta = some pMeta)
    (hwMf : wfO Mf = true)
    (hrm : mergeFields Mf tMeta = some rMeta)
    (hMfk : getVal Mf key = getVal pMeta key ∨
      (∃ lL tL L1, getVal lMeta key = some (.obj lL) ∧ getVal tMeta key = some (.obj tL) ∧
        mergeFields lL tL = some L1 ∧ getVal Mf key = some (.obj (putAll L1 lL))) ∨
      (∃ lL tv, getVal lMeta key = some (.obj lL) ∧ getVal tMeta key = some tv ∧
        (∀ o, tv ≠ .obj o) ∧ getVal Mf key = some (.obj lL)))
    (hZ : getVal Z key = getVal rMeta key) :
    getVal (mergeLAKey key Mf Z) key = getVal Mf key := by
  have hnMf := nodupKeys_of_wfO Mf hwMf
  have hnt := nodupKeys_of_wfO tMeta hwt
  rcases hMfk with hid | ⟨lL, tL, L1, hl, ht, hL1, hMk⟩ | ⟨lL, tv, hl, ht, htno, hMk⟩
  · have hpoint :=
      mergeFields_second_point lMeta tMeta pMeta Mf rMeta key hwl hwt hpm hnMf hrm hid
    cases hMv : getVal Mf key with
    | none =>
      rw [mergeLAKey_id_of_not_obj key Mf Z (fun o h => by
        rw [hMv] at h
        exact Option.noConfusion h)]
      rw [hZ, hpoint]
      exact hMv
    | some v =>
      cases v with
      | obj X =>
        have hZX : getVal Z key = some (.obj X) := by rw [hZ, hpoint, hMv]
        rw [mergeLAKey_getVal_key key Mf Z X X hMv hZX]
        have hnX : nodupKeys X = true :=
          nodupKeys_of_wfO X (wfV_getVal Mf key (.obj X) hwMf hMv)
        rw [putAll_self X hnX, getVal_setVal_self Z key (.obj X)]
      | str s =>
        rw [mergeLAKey_id_of_not_obj key Mf Z (fun o h => by
          rw [hMv] at h
          exact JValue.noConfusion (Option.some.inj h))]
        rw [hZ, hpoint]
        exact hMv
      | num n =>
        rw [mergeLAKey_id_of_not_obj key Mf Z (fun o h => by
          rw [hMv] at h
          exact JValue.noConfusion (Option.some.inj h))]
        rw [hZ, hpoint]
        exact hMv
      | boolean b =>
        rw [mergeLAKey_id_of_not_obj key Mf Z (fun o h => by
          rw [hMv] at h
          exact JValue.noConfusion (Option.some.inj h))]
        rw [hZ, hpoint]
        exact hMv
      | arr a =>
        rw [mergeLAKey_id_of_not_obj key Mf Z (fun o h => by
          rw [hMv] at h
          exact JValue.noConfusion (Option.some.inj h))]
        rw [hZ, hpoint]
        exact hMv
  · have hwlL : wfO lL = true := wfV_getVal lMeta key (.obj lL) hwl hl
    have hwtL : wfO tL = true := wfV_getVal tMeta key (.obj tL) hwt ht
    obtain ⟨RL, hRL, hfix⟩ := putAll_merge_fixpoint lL tL L1 hwlL hwtL hL1
    obtain ⟨w, hw, hr⟩ :=
      mergeFields_getVal_both Mf tMeta rMeta key (.obj (putAll L1 lL)) (.obj tL)
        hnMf hnt hrm hMk ht
    have hntL := nodupKeys_of_wfO tL hwtL
    rw [mergeVal_obj_obj (putAll L1 lL) tL hntL, hRL] at hw
    have hwv : w = .obj RL := by simpa using hw.symm
    subst hwv
    have hZk : getVal Z key = some (.obj RL) := by rw [hZ, hr]
    rw [mergeLAKey_getVal_key key Mf Z (putAll L1 lL) RL hMk hZk]
    rw [hfix, getVal_setVal_self Z key (.obj (putAll L1 lL)), hMk]
  · obtain ⟨w, hw, hr⟩ :=
      mergeFields_getVal_both Mf tMeta rMeta key (.obj lL) tv hnMf hnt hrm hMk ht
    rw [mergeVal_obj_not_obj lL tv htno] at hw
    have hwv : w = tv := by simpa using hw.symm
    subst hwv
    have hZk : getVal Z key = some w := by rw [hZ, hr]
    rw [mergeLAKey_install key Mf Z lL hMk (fun cm h => by
      rw [hZk] at h
      exact absurd (Option.some.inj h) (htno cm))]
    rw [getVal_setVal_self Z key (.obj lL), hMk]

/-- A value taken from a merge output absorbs a further merge with the same
template value. -/
theorem mergeVal_second_point (lMeta tMeta pMeta : JObj) (k : String) (dv cv : JValue)
    (hwl : wfO lMeta = true) (hwt : wfO tMeta = true)
    (hpm : mergeFields lMeta tMeta = some pMeta)
    (hd : getVal pMeta k = some dv) (hc : getVal tMeta k = some cv) :
    mergeVal dv cv = some dv := by
  have hnl := nodupKeys_of_wfO lMeta hwl
  have hnt := nodupKeys_of_wfO tMeta hwt
  have hwcv : wfV cv = true := wfV_getVal tMeta k cv hwt hc
  cases hlk : getVal lMeta k with
  | some lv =>
    obtain ⟨w0, hw0, hp0⟩ :=
      mergeFields_getVal_both lMeta tMeta pMeta k lv cv hnl hnt hpm hlk hc
    have hw0dv : w0 = dv := by
      rw [hp0] at hd
      simpa using hd
    subst hw0dv
    exact mergeVal_idem lv cv w0 (wfV_getVal lMeta k lv hwl hlk) hwcv hw0
  | none =>
    have h2 : getVal pMeta k = getVal tMeta k :=
      mergeFields_getVal_df_absent lMeta tMeta pMeta k hnl hnt hpm hlk
    rw [hd, hc] at h2
    have hdc : dv = cv := by simpa using h2
    subst hdc
    exact mergeVal_refl dv

/-- The labels/annotations fix-up never adds a key as long as the changed
side already binds the key whenever the fix-up fires. -/
theorem keysO_mergeLAKey (key : String) (d c : JObj)
    (h : ∀ dm, getVal d key = some (.obj dm) → (getVal c key).isSome = true) :
    keysO (mergeLAKey key d c) = keysO c := by
  unfold mergeLAKey
  cases hg : getVal d key with
  | none => rfl
  | some dv =>
    cases dv with
    | obj dm =>
      dsimp only []
      have hks := h dm hg
      cases hcg : getVal c key with
      | none => rw [hcg] at hks; simp at hks
      | some cv =>
        cases cv with
        | obj cm => exact keysO_setVal_mem c key _ (by rw [hcg]; rfl)
        | str s => exact keysO_setVal_mem c key _ (by rw [hcg]; rfl)
        | num n => exact keysO_setVal_mem c key _ (by rw [hcg]; rfl)
        | boolean b => exact keysO_setVal_mem c key _ (by rw [hcg]; rfl)
        | arr a => exact keysO_setVal_mem c key _ (by rw [hcg]; rfl)
    | str s => rfl
    | num n => rfl
    | boolean b => rfl
    | arr a => rfl

/-- Re-merging the fixed-up metadata mapping against the template metadata
succeeds, and applying the labels/annotations fix-up to the re-merge result
restores the mapping unchanged. -/
theorem mergeMetadata_meta_fix (lMeta tMeta pMeta CM1 Mf : JObj)
    (hwl : wfO lMeta = true) (hwt : wfO tMeta = true)
    (hpm : mergeFields lMeta tMeta = some pMeta)
    (hCM1 : CM1 = mergeLAKey "labels" lMeta pMeta)
    (hMf : Mf = mergeLAKey "annotations" lMeta CM1) :
    ∃ rMeta, mergeFields Mf tMeta = some rMeta ∧
      mergeLAKey "annotations" Mf (mergeLAKey "labels" Mf rMeta) = Mf := by
  have hnl := nodupKeys_of_wfO lMeta hwl
  have hnt := nodupKeys_of_wfO tMeta hwt
  have hwp : wfO pMeta = true := wfO_mergeFields lMeta tMeta pMeta hwl hwt hpm
  have hnp := nodupKeys_of_wfO pMeta hwp
  have hwCM1 : wfO CM1 = true := by
    rw [hCM1]
    exact wfO_mergeLAKey "labels" lMeta pMeta hwl hwp
  have hwMf : wfO Mf = true := by
    rw [hMf]
    exact wfO_mergeLAKey "annotations" lMeta CM1 hwl hwCM1
  have hnMf := nodupKeys_of_wfO Mf hwMf
  have hXann : getVal CM1 "annotations" = getVal pMeta "annotations" := by
    rw [hCM1]
    exact getVal_mergeLAKey_other "labels" lMeta pMeta "annotations" (by decide)
  have hMfLab : getVal Mf "labels" = getVal CM1 "labels" := by
    rw [hMf]
    exact getVal_mergeLAKey_other "annotations" lMeta CM1 "labels" (by decide)
  have hother : ∀ k, k ≠ "labels" → k ≠ "annotations" → getVal Mf k = getVal pMeta k := by
    intro k hk1 hk2
    rw [hMf, getVal_mergeLAKey_other "annotations" lMeta CM1 k hk2, hCM1,
      getVal_mergeLAKey_other "labels" lMeta pMeta k hk1]
  have hcharL := mergeLAKey_char "labels" lMeta tMeta pMeta pMeta hwl hwt hpm rfl
  have hcharA := mergeLAKey_char "annotations" lMeta tMeta pMeta CM1 hwl hwt hpm hXann
  have DL : getVal Mf "labels" = getVal pMeta "labels" ∨
      (∃ lL tL L1, getVal lMeta "labels" = some (.obj lL) ∧
        getVal tMeta "labels" = some (.obj tL) ∧ mergeFields lL tL = some L1 ∧
        getVal Mf "labels" = some (.obj (putAll L1 lL))) ∨
      (∃ lL tv, getVal lMeta "labels" = some (.obj lL) ∧
        getVal tMeta "labels" = some tv ∧ (∀ o, tv ≠ .obj o) ∧
        getVal Mf "labels" = some (.obj lL)) := by
    rcases hcharL with hid | ⟨lL, tL, L1, hl, ht, hL1, hpk, heq⟩ |
      ⟨lL, tv, hl, ht, htno, hpk, heq⟩
    · left
      rw [hMfLab, hCM1, hid]
    · right; left
      refine ⟨lL, tL, L1, hl, ht, hL1, ?_⟩
      rw [hMfLab, hCM1, heq]
      exact getVal_setVal_self pMeta "labels" _
    · right; right
      refine ⟨lL, tv, hl, ht, htno, ?_⟩
      rw [hMfLab, hCM1, heq]
      exact getVal_setVal_self pMeta "labels" _
  have DA : getVal Mf "annotations" = getVal pMeta "annotations" ∨
      (∃ lL tL L1, getVal lMeta "annotations" = some (.obj lL) ∧
        getVal tMeta "annotations" = some (.obj tL) ∧ mergeFields lL tL = some L1 ∧
        getVal Mf "annotations" = some (.obj (putAll L1 lL))) ∨
      (∃ lL tv, getVal lMeta "annotations" = some (.obj lL) ∧
        getVal tMeta "annotations" = some tv ∧ (∀ o, tv ≠ .obj o) ∧
        getVal Mf "annotations" = some (.obj lL)) := by
    rcases hcharA with hid | ⟨lL, tL, L1, hl, ht, hL1, hpk, heq⟩ |
      ⟨lL, tv, hl, ht, htno, hpk, heq⟩
    · left
      rw [hMf, hid, hXann]
    · right; left
      refine ⟨lL, tL, L1, hl, ht, hL1, ?_⟩
      rw [hMf, heq]
      exact getVal_setVal_self CM1 "annotations" _
    · right; right
      refine ⟨lL, tv, hl, ht, htno, ?_⟩
      rw [hMf, heq]
      exact getVal_setVal_self CM1 "annotations" _
  have hsucc : (mergeFields Mf tMeta).isSome = true := by
    refine mergeFields_succeeds Mf tMeta hnMf hnt (fun k dv cv hd hc => ?_)
    by_cases hkl : k = "labels"
    · subst hkl
      rcases DL with hL | ⟨lL, tL, L1, hl, ht, hL1, hMk⟩ | ⟨lL, tv, hl, ht, htno, hMk⟩
      · rw [hL] at hd
        rw [mergeVal_second_point lMeta tMeta pMeta "labels" dv cv hwl hwt hpm hd hc]
        rfl
      · rw [hMk] at hd
        have hdv : dv = .obj (putAll L1 lL) := by simpa using hd.symm
        subst hdv
        rw [ht] at hc
        have hcv : cv = .obj tL := by simpa using hc.symm
        subst hcv
        obtain ⟨RL, hRL, _⟩ := putAll_merge_fixpoint lL tL L1
          (wfV_getVal lMeta "labels" (.obj lL) hwl hl)
          (wfV_getVal tMeta "labels" (.obj tL) hwt ht) hL1
        rw [mergeVal_obj_obj (putAll L1 lL) tL
          (nodupKeys_of_wfO tL (wfV_getVal tMeta "labels" (.obj tL) hwt ht)), hRL]
        rfl
      · rw [hMk] at hd
        have hdv : dv = .obj lL := by simpa using hd.symm
        subst hdv
        rw [ht] at hc
        have hcv : cv = tv := by simpa using hc.symm
        subst hcv
        rw [mergeVal_obj_not_obj lL cv htno]
        rfl
    · by_cases hka : k = "annotations"
      · subst hka
        rcases DA with hL | ⟨lL, tL, L1, hl, ht, hL1, hMk⟩ | ⟨lL, tv, hl, ht, htno, hMk⟩
        · rw [hL] at hd
          rw [mergeVal_second_point lMeta tMeta pMeta "annotations" dv cv hwl hwt hpm hd hc]
          rfl
        · rw [hMk] at hd
          have hdv : dv = .obj (putAll L1 lL) := by simpa using hd.symm
          subst hdv
          rw [ht] at hc
          have hcv : cv = .obj tL := by simpa using hc.symm
          subst hcv
          obtain ⟨RL, hRL, _⟩ := putAll_merge_fixpoint lL tL L1
            (wfV_getVal lMeta "annotations" (.obj lL) hwl hl)
            (wfV_getVal tMeta "annotations" (.obj tL) hwt ht) hL1
          rw [mergeVal_obj_obj (putAll L1 lL) tL
            (nodupKeys_of_wfO tL (wfV_getVal tMeta "annotations" (.obj tL) hwt ht)), hRL]
          rfl
        · rw [hMk] at hd
          have hdv : dv = .obj lL := by simpa using hd.symm
          subst hdv
          rw [ht] at hc
          have hcv : cv = tv := by simpa using hc.symm
          subst hcv
          rw [mergeVal_obj_not_obj lL cv htno]
          rfl
      · rw [hother k hkl hka] at hd
        rw [mergeVal_second_point lMeta tMeta pMeta k dv cv hwl hwt hpm hd hc]
        rfl
  cases hrm : mergeFields Mf tMeta with
  | none => rw [hrm] at hsucc; simp at hsucc
  | some rMeta =>
    refine ⟨rMeta, rfl, ?_⟩
    have hwr : wfO rMeta = true := wfO_mergeFields Mf tMeta rMeta hwMf hwt hrm
    have hnr := nodupKeys_of_wfO rMeta hwr
    have hkeysP : keysO pMeta =
        keysO tMeta ++ (keysO lMeta).filter (fun k => (getVal tMeta k).isNone) :=
      keysO_mergeFields lMeta tMeta pMeta hnl hnt hpm
    have hkeysCM1 : keysO CM1 = keysO pMeta := by
      rw [hCM1]
      refine keysO_mergeLAKey "labels" lMeta pMeta (fun dm hdm => ?_)
      rw [isSome_getVal_mergeFields lMeta tMeta pMeta "labels" hnl hnt hpm, hdm]
      simp
    have hkeysMf : keysO Mf = keysO pMeta := by
      rw [hMf]
      have h1 : ∀ dm, getVal lMeta "annotations" = some (.obj dm) →
          (getVal CM1 "annotations").isSome = true := by
        intro dm hdm
        rw [hXann,
          isSome_getVal_mergeFields lMeta tMeta pMeta "annotations" hnl hnt hpm, hdm]
        simp
      rw [keysO_mergeLAKey "annotations" lMeta CM1 h1, hkeysCM1]
    have hkeysR : keysO rMeta = keysO Mf := by
      rw [keysO_mergeFields Mf tMeta rMeta hnMf hnt hrm, hkeysMf, hkeysP,
        List.filter_append, filter_keysO_self_nil tMeta, List.nil_append,
        filter_isNone_idem ((keysO lMeta).filter (fun k => (getVal tMeta k).isNone)) tMeta
          (fun k hk => (List.mem_filter.mp hk).2)]
    have hY1keys : keysO (mergeLAKey "labels" Mf rMeta) = keysO rMeta := by
      refine keysO_mergeLAKey "labels" Mf rMeta (fun dm hdm => ?_)
      rw [isSome_getVal_mergeFields Mf tMeta rMeta "labels" hnMf hnt hrm, hdm]
      simp
    have hY2keys :
        keysO (mergeLAKey "annotations" Mf (mergeLAKey "labels" Mf rMeta)) =
          keysO rMeta := by
      have h1 : ∀ dm, getVal Mf "annotations" = some (.obj dm) →
          (getVal (mergeLAKey "labels" Mf rMeta) "annotations").isSome = true := by
        intro dm hdm
        rw [getVal_mergeLAKey_other "labels" Mf rMeta "annotations" (by decide),
          isSome_getVal_mergeFields Mf tMeta rMeta "annotations" hnMf hnt hrm, hdm]
        simp
      rw [keysO_mergeLAKey "annotations" Mf (mergeLAKey "labels" Mf rMeta) h1, hY1keys]
    refine objEq_ext _ Mf (by rw [hY2keys, hkeysR])
      (nodupKeys_congr Mf _ (by rw [hY2keys, hkeysR]) hnMf) hnMf (fun k => ?_)
    by_cases hkl : k = "labels"
    · subst hkl
      rw [getVal_mergeLAKey_other "annotations" Mf (mergeLAKey "labels" Mf rMeta)
        "labels" (by decide)]
      exact mergeLAKey_second "labels" lMeta tMeta pMeta Mf rMeta rMeta
        hwl hwt hpm hwMf hrm DL rfl
    · by_cases hka : k = "annotations"
      · subst hka
        exact mergeLAKey_second "annotations" lMeta tMeta pMeta Mf rMeta
          (mergeLAKey "labels" Mf rMeta) hwl hwt hpm hwMf hrm DA
          (getVal_mergeLAKey_other "labels" Mf rMeta "annotations" (by decide))
      · rw [getVal_mergeLAKey_other "annotations" Mf (mergeLAKey "labels" Mf rMeta) k hka,
          getVal_mergeLAKey_other "labels" Mf rMeta k hkl]
        exact mergeFields_second_point lMeta tMeta pMeta Mf rMeta k hwl hwt hpm hnMf hrm
          (hother k hkl hka)

/-- Writing the first pass's metadata value back into the second-pass merge
result reproduces the first pass's document. -/
theorem setVal_restore (l t p1 m r X : JObj)
    (hwl : wfO l = true) (hwt : wfO t = true)
    (hp1 : mergeFields l t = some p1)
    (hpk : (getVal p1 "metadata").isSome = true)
    (hm : m = setVal p1 "metadata" (.obj X))
    (hwm : wfO m = true)
    (hr : mergeFields m t = some r) :
    setVal r "metadata" (.obj X) = m := by
  have hnm := nodupKeys_of_wfO m hwm
  have hnl := nodupKeys_of_wfO l hwl
  have hnt := nodupKeys_of_wfO t hwt
  have hwp1 : wfO p1 = true := wfO_mergeFields l t p1 hwl hwt hp1
  have hnp1 := nodupKeys_of_wfO p1 hwp1
  have hwr : wfO r = true := wfO_mergeFields m t r hwm hwt hr
  have hnr := nodupKeys_of_wfO r hwr
  have hmmeta : getVal m "metadata" = some (.obj X) := by
    rw [hm]
    exact getVal_setVal_self p1 "metadata" _
  have hrs : (getVal r "metadata").isSome = true := by
    rw [isSome_getVal_mergeFields m t r "metadata" hnm hnt hr, hmmeta]
    simp
  have hkm : keysO m = keysO p1 := by
    rw [hm]
    exact keysO_setVal_mem p1 "metadata" _ hpk
  have hkr : keysO r = keysO m := by
    rw [keysO_mergeFields m t r hnm hnt hr, hkm, keysO_mergeFields l t p1 hnl hnt hp1,
      List.filter_append, filter_keysO_self_nil t, List.nil_append,
      filter_isNone_idem ((keysO l).filter (fun k => (getVal t k).isNone)) t
        (fun k hk2 => (List.mem_filter.mp hk2).2)]
  refine objEq_ext _ m ?_ ?_ hnm (fun k => ?_)
  · rw [keysO_setVal_mem r "metadata" (.obj X) hrs, hkr]
  · exact nodupKeys_congr m _
      (by rw [keysO_setVal_mem r "metadata" (.obj X) hrs, hkr]) hnm
  · by_cases hk : k = "metadata"
    · subst hk
      rw [getVal_setVal_self r "metadata" (.obj X), hmmeta]
    · rw [getVal_setVal_ne r "metadata" (.obj X) k (fun he => hk he.symm)]
      have hpt : getVal m k = getVal p1 k := by
        rw [hm]
        exact getVal_setVal_ne p1 "metadata" (.obj X) k (fun he => hk he.symm)
      exact mergeFields_second_point l t p1 m r k hwl hwt hp1 hnm hr hpt

/-- When the default document's metadata is a mapping and the changed
document's is not, the default metadata is installed wholesale. -/
theorem mergeMetadata_install (d c dMeta : JObj)
    (hd : getVal d "metadata" = some (.obj dMeta))
    (hc : ∀ cm, getVal c "metadata" ≠ some (.obj cm)) :
    mergeMetadata d c = setVal c "metadata" (.obj dMeta) := by
  unfold mergeMetadata
  rw [hd]
  dsimp only []
  cases hcv : getVal c "metadata" with
  | none => rfl
  | some cv =>
    cases cv with
    | obj o => exact absurd hcv (hc o)
    | str s => rfl
    | num n => rfl
    | boolean b => rfl
    | arr a => rfl

/-- Claim C5: the merge is idempotent in its live argument: whenever the
both-sides merge of the live document against the template produces a
document, merging that result against the same template reproduces it
exactly (`Merge(Merge(live, template), template) = Merge(live, template)`). -/
theorem mergeBoth_idem (l t m : JObj)
    (hwl : wfO l = true) (hwt : wfO t = true)
    (hm : mergeBoth l t = some m) : mergeBoth m t = some m := by
  unfold mergeBoth at hm
  cases hp1 : mergeFields l t with
  | none => rw [hp1] at hm; exact Option.noConfusion hm
  | some p1 =>
    rw [hp1] at hm
    dsimp only [] at hm
    have hmm : m = mergeMetadata l p1 := by simpa using hm.symm
    have hwp1 : wfO p1 = true := wfO_mergeFields l t p1 hwl hwt hp1
    have hnl := nodupKeys_of_wfO l hwl
    have hnt := nodupKeys_of_wfO t hwt
    have hnp1 := nodupKeys_of_wfO p1 hwp1
    have heasy : m = p1 → mergeBoth m t = some m := by
      intro he
      subst he
      unfold mergeBoth
      rw [mergeFields_idem l t m hwl hwt hp1]
      dsimp only []
      rw [mergeMetadata_self m hwp1]
    by_cases hlo : ∃ lMeta, getVal l "metadata" = some (.obj lMeta)
    · obtain ⟨lMeta, hlm⟩ := hlo
      have hwlMeta : wfO lMeta = true := wfV_getVal l "metadata" (.obj lMeta) hwl hlm
      cases htm : getVal t "metadata" with
      | none =>
        refine heasy ?_
        have hpm : getVal p1 "metadata" = some (.obj lMeta) :=
          mergeFields_getVal_live_only l t p1 "metadata" (.obj lMeta) hnl hnt hp1 hlm htm
        rw [hmm]
        unfold mergeMetadata
        rw [hlm]
        dsimp only []
        rw [hpm]
        dsimp only []
        rw [mergeLAKey_self "labels" lMeta hwlMeta,
          mergeLAKey_self "annotations" lMeta hwlMeta]
        exact setVal_of_getVal p1 "metadata" (.obj lMeta) hpm
      | some tv =>
        obtain ⟨w, hw, hpk⟩ :=
          mergeFields_getVal_both l t p1 "metadata" (.obj lMeta) tv hnl hnt hp1 hlm htm
        by_cases hox : ∃ tMeta, tv = .obj tMeta
        · obtain ⟨tMeta, rfl⟩ := hox
          have hwtMeta : wfO tMeta = true := wfV_getVal t "metadata" (.obj tMeta) hwt htm
          have hntMeta := nodupKeys_of_wfO tMeta hwtMeta
          rw [mergeVal_obj_obj lMeta tMeta hntMeta] at hw
          cases hpm : mergeFields lMeta tMeta with
          | none => rw [hpm] at hw; simp at hw
          | some pMeta =>
            rw [hpm] at hw
            have hwv : w = .obj pMeta := by simpa using hw.symm
            subst hwv
            obtain ⟨rMeta, hrm, hfix⟩ := mergeMetadata_meta_fix lMeta tMeta pMeta
              (mergeLAKey "labels" lMeta pMeta)
              (mergeLAKey "annotations" lMeta (mergeLAKey "labels" lMeta pMeta))
              hwlMeta hwtMeta hpm rfl rfl
            have hmeq : m = setVal p1 "metadata"
                (.obj (mergeLAKey "annotations" lMeta (mergeLAKey "labels" lMeta pMeta))) := by
              rw [hmm]
              unfold mergeMetadata
              rw [hlm]
              dsimp only []
              rw [hpk]
            have hwMf : wfO (mergeLAKey "annotations" lMeta
                (mergeLAKey "labels" lMeta pMeta)) = true :=
              wfO_mergeLAKey "annotations" lMeta _ hwlMeta
                (wfO_mergeLAKey "labels" lMeta pMeta hwlMeta
                  (wfO_mergeFields lMeta tMeta pMeta hwlMeta hwtMeta hpm))
            have hwm : wfO m = true := by
              rw [hmeq]
              refine wfO_setVal p1 "metadata" _ hwp1 ?_
              show wfO (mergeLAKey "annotations" lMeta
                (mergeLAKey "labels" lMeta pMeta)) = true
              exact hwMf
            have hnm := nodupKeys_of_wfO m hwm
            have hmmeta : getVal m "metadata" = some (.obj (mergeLAKey "annotations" lMeta
                (mergeLAKey "labels" lMeta pMeta))) := by
              rw [hmeq]
              exact getVal_setVal_self p1 "metadata" _
            have hsucc : (mergeFields m t).isSome = true := by
              refine mergeFields_succeeds m t hnm hnt (fun k dv cv hd hc => ?_)
              by_cases hk : k = "metadata"
              · subst hk
                rw [hmmeta] at hd
                have hdv : dv = .obj (mergeLAKey "annotations" lMeta
                    (mergeLAKey "labels" lMeta pMeta)) := by simpa using hd.symm
                subst hdv
                rw [htm] at hc
                have hcv : cv = .obj tMeta := by simpa using hc.symm
                subst hcv
                rw [mergeVal_obj_obj _ tMeta hntMeta, hrm]
                rfl
              · have hd2 : getVal p1 k = some dv := by
                  rw [hmeq, getVal_setVal_ne p1 "metadata" _ k (fun he => hk he.symm)] at hd
                  exact hd
                rw [mergeVal_second_point l t p1 k dv cv hwl hwt hp1 hd2 hc]
                rfl
            cases hr : mergeFields m t with
            | none => rw [hr] at hsucc; simp at hsucc
            | some r =>
              obtain ⟨w2, hw2, hr2⟩ :=
                mergeFields_getVal_both m t r "metadata" _ (.obj tMeta) hnm hnt hr hmmeta htm
              rw [mergeVal_obj_obj _ tMeta hntMeta, hrm] at hw2
              have hw2v : w2 = .obj rMeta := by simpa using hw2.symm
              subst hw2v
              unfold mergeBoth
              rw [hr]
              dsimp only []
              have hgoal : mergeMetadata m r = m := by
                unfold mergeMetadata
                rw [hmmeta]
                dsimp only []
                rw [hr2]
                dsimp only []
                rw [hfix]
                exact setVal_restore l t p1 m r _ hwl hwt hp1 (by rw [hpk]; rfl) hmeq hwm hr
              rw [hgoal]
        · have htno : ∀ o, tv ≠ .obj o := fun o h => hox ⟨o, h⟩
          rw [mergeVal_obj_not_obj lMeta tv htno] at hw
          have hwv : w = tv := by simpa using hw.symm
          rw [hwv] at hpk
          have hmeq : m = setVal p1 "metadata" (.obj lMeta) := by
            rw [hmm]
            exact mergeMetadata_install l p1 lMeta hlm (fun cm h => by
              rw [hpk] at h
              exact absurd (Option.some.inj h) (htno cm))
          have hwm : wfO m = true := by
            rw [hmeq]
            refine wfO_setVal p1 "metadata" _ hwp1 ?_
            show wfO lMeta = true
            exact hwlMeta
          have hnm := nodupKeys_of_wfO m hwm
          have hmmeta : getVal m "metadata" = some (.obj lMeta) := by
            rw [hmeq]
            exact getVal_setVal_self p1 "metadata" _
          have hsucc : (mergeFields m t).isSome = true := by
            refine mergeFields_succeeds m t hnm hnt (fun k dv cv hd hc => ?_)
            by_cases hk : k = "metadata"
            · subst hk
              rw [hmmeta] at hd
              have hdv : dv = .obj lMeta := by simpa using hd.symm
              subst hdv
              rw [htm] at hc
              have hcv : cv = tv := by simpa using hc.symm
              rw [hcv, mergeVal_obj_not_obj lMeta tv htno]
              rfl
            · have hd2 : getVal p1 k = some dv := by
                rw [hmeq, getVal_setVal_ne p1 "metadata" _ k (fun he => hk he.symm)] at hd
                exact hd
              rw [mergeVal_second_point l t p1 k dv cv hwl hwt hp1 hd2 hc]
              rfl
          cases hr : mergeFields m t with
          | none => rw [hr] at hsucc; simp at hsucc
          | some r =>
            obtain ⟨w2, hw2, hr2⟩ :=
              mergeFields_getVal_both m t r "metadata" (.obj lMeta) tv hnm hnt hr hmmeta htm
            rw [mergeVal_obj_not_obj lMeta tv htno] at hw2
            have hw2v : w2 = tv := by simpa using hw2.symm
            rw [hw2v] at hr2
            unfold mergeBoth
            rw [hr]
            dsimp only []
            have hgoal : mergeMetadata m r = m := by
              rw [mergeMetadata_install m r lMeta hmmeta (fun cm h => by
                rw [hr2] at h
                exact absurd (Option.some.inj h) (htno cm))]
              exact setVal_restore l t p1 m r lMeta hwl hwt hp1 (by rw [hpk]; rfl) hmeq hwm hr
            rw [hgoal]
    · refine heasy ?_
      rw [hmm]
      exact mergeMetadata_id_of_not_obj l p1 (fun o h => hlo ⟨o, h⟩)

theorem mergeBoth_idem_witness :
    (wfO wLive = true ∧ wfO wTpl = true ∧ mergeBoth wLive wTpl = some wMerged) ∧
    mergeBoth wMerged wTpl = some wMerged :=
  ⟨⟨by decide, by decide, by decide⟩,
    mergeBoth_idem wLive wTpl wMerged (by decide) (by decide) (by decide)⟩
